import Mathlib

/-!
Formal model of the retrieval-augmented context-assembly pipeline of the
`rag-voice-agent` repository, as a shallow embedding over `List Char`
(strings as lists of characters, lengths counted in characters) and pure
functions.  Each service method used by the verified properties is
translated directly from its TypeScript source:

* `VectorService.executeWithRetry` (src/backend/src/rag/vector.service.ts)
* `LLMService.generateAnswer`, `buildContext`, `optimizeContextForTokenLimit`
  (src/backend/src/rag/llm.service.ts)
* `EmbeddingService.generateEmbeddings` (rag embedding service)
* `TextChunkingService.*` (document-processing text-chunking service)
* `TextPreprocessingService.preprocess` (text-preprocessing service)

External effects (the OpenAI client, the Qdrant client, timers) are modelled
by passing the outcome of each external call as an explicit argument and by
returning the list of network requests a method issues, so that properties
about "no network call is made" or "the provider is invoked k times" are
statements about these explicit traces.
-/

namespace RagSpec

/-- The set of characters removed by JavaScript `String.prototype.trim`
(WhiteSpace and LineTerminator code points). -/
def jsWhitespaceChars : List Char :=
  [' ', '\t', '\n', '\r', '\x0b', '\x0c', '\u00A0', '\u1680',
   '\u2000', '\u2001', '\u2002', '\u2003', '\u2004', '\u2005', '\u2006',
   '\u2007', '\u2008', '\u2009', '\u200A', '\u2028', '\u2029', '\u202F',
   '\u205F', '\u3000', '\uFEFF']

/-- JavaScript whitespace test used by `trim`. -/
def isJsWs (c : Char) : Bool := jsWhitespaceChars.contains c

/-- Model of JavaScript `String.prototype.trim`: strip whitespace from both
ends. -/
def jsTrim (l : List Char) : List Char :=
  ((l.dropWhile isJsWs).reverse.dropWhile isJsWs).reverse

end RagSpec

namespace RagSpec.VectorService

/-- One iteration of the `for (let attempt = 1; attempt <= maxRetries; ...)`
loop of `VectorService.executeWithRetry`.  `op k` is the outcome of the k-th
invocation of the wrapped operation (1-indexed).  The result records the
final outcome (`none` models the loop body never running, i.e. the
`maxRetries = 0` corner where the code would rethrow an undefined
`lastError`), the number of invocations performed, and the list of backoff
delays slept between consecutive attempts. -/
def retryLoop {E A : Type} (op : Nat → Except E A) (retryDelay : Nat)
    (attempt : Nat) : Nat → Option (Except E A) × Nat × List Nat
  | 0 => (none, 0, [])
  | remaining + 1 =>
    match op attempt with
    | .ok a => (some (.ok a), 1, [])
    | .error e =>
      if remaining = 0 then (some (.error e), 1, [])
      else
        let d := retryDelay * 2 ^ (attempt - 1)
        let r := retryLoop op retryDelay (attempt + 1) remaining
        (r.1, r.2.1 + 1, d :: r.2.2)

/-- `VectorService.executeWithRetry`: run `op` up to `maxRetries` times,
sleeping `retryDelay * 2^(attempt-1)` between consecutive attempts, returning
the first success or the last error. -/
def executeWithRetry {E A : Type} (maxRetries retryDelay : Nat)
    (op : Nat → Except E A) : Option (Except E A) × Nat × List Nat :=
  retryLoop op retryDelay 1 maxRetries

theorem retryLoop_spec {E A : Type} (op : Nat → Except E A) (d : Nat) :
    ∀ (rem att : Nat), 1 ≤ att → 1 ≤ rem →
      (∀ k, att ≤ k → k < att + rem - 1 → ∃ e, op k = Except.error e) →
      retryLoop op d att rem =
        (some (op (att + rem - 1)), rem,
          (List.range (rem - 1)).map (fun i => d * 2 ^ (att + i - 1))) := by
  intro rem
  induction rem with
  | zero => intro att _ h; omega
  | succ r ih =>
    intro att hatt _ hfail
    by_cases hr : r = 0
    · subst hr
      simp only [retryLoop]
      cases hOp : op att with
      | ok a => simp [hOp]
      | error e => simp [hOp]
    · have hfirst : ∃ e, op att = Except.error e := by
        apply hfail att le_rfl; omega
      obtain ⟨e, he⟩ := hfirst
      simp only [retryLoop, he, if_neg hr]
      rw [ih (att + 1) (by omega) (by omega) (fun k hk1 hk2 => hfail k (by omega) (by omega))]
      have harith : att + 1 + r - 1 = att + (r + 1) - 1 := by omega
      rw [harith]
      have hdel : (List.range (r + 1 - 1)).map (fun i => d * 2 ^ (att + i - 1)) =
          d * 2 ^ (att - 1) ::
            (List.range (r - 1)).map (fun i => d * 2 ^ (att + 1 + i - 1)) := by
        rw [Nat.add_sub_cancel]
        conv_lhs => rw [show r = (r - 1) + 1 by omega, List.range_succ_eq_map]
        rw [List.map_cons, List.map_map]
        refine List.cons_eq_cons.mpr ⟨by rw [Nat.add_zero], ?_⟩
        apply List.map_congr_left
        intro i _
        simp only [Function.comp_apply, Nat.succ_eq_add_one]
        congr 2
        omega
      rw [hdel]

/-- C2: wrapped in the retry policy, an operation that fails on every attempt
before attempt `maxRetries` is invoked exactly `maxRetries` times, with
backoff delay `retryDelay * 2^(attempt-1)` between consecutive attempts, and
the wrapper then returns the outcome of the final attempt: the successful
result if attempt `maxRetries` succeeds, and the propagated last error if it
fails. -/
theorem executeWithRetry_retry_budget {E A : Type} (m d : Nat) (hm : 1 ≤ m)
    (op : Nat → Except E A)
    (hfail : ∀ k, 1 ≤ k → k < m → ∃ e, op k = Except.error e) :
    executeWithRetry m d op =
      (some (op m), m, (List.range (m - 1)).map (fun i => d * 2 ^ i)) := by
  unfold executeWithRetry
  rw [retryLoop_spec op d m 1 le_rfl hm (fun k hk1 hk2 => hfail k hk1 (by omega))]
  have h1 : 1 + m - 1 = m := by omega
  rw [h1]
  have hdel : (List.range (m - 1)).map (fun i => d * 2 ^ (1 + i - 1)) =
      (List.range (m - 1)).map (fun i => d * 2 ^ i) := by
    apply List.map_congr_left
    intro i _
    have h2 : 1 + i - 1 = i := by omega
    rw [h2]
  rw [hdel]

/-- Witness for C2 at concrete inputs: with `maxRetries = 3`,
`retryDelay = 1000`, an operation failing exactly twice then succeeding
returns the success after exactly 3 invocations with delays 1000 and 2000,
and an always-failing operation is invoked exactly 3 times and the last
error is propagated. -/
theorem executeWithRetry_retry_budget_witness :
    executeWithRetry 3 1000
        (fun k => if k < 3 then Except.error "down" else Except.ok 42) =
      (some (Except.ok 42), 3, [1000, 2000]) ∧
    executeWithRetry 3 1000
        (fun _ => (Except.error "index down" : Except String Nat)) =
      (some (Except.error "index down"), 3, [1000, 2000]) := by
  constructor
  · rw [executeWithRetry_retry_budget 3 1000 (by decide)
      (fun k => if k < 3 then Except.error "down" else Except.ok 42)
      (fun k hk1 hk2 => ⟨"down", by simp [if_pos hk2]⟩)]
    rfl
  · rw [executeWithRetry_retry_budget 3 1000 (by decide)
      (fun _ => (Except.error "index down" : Except String Nat))
      (fun k hk1 hk2 => ⟨"index down", rfl⟩)]
    rfl

end RagSpec.VectorService

namespace RagSpec.LLMService

/-- `DocumentContext` from llm.service.ts.  Scores are JS numbers used only
in comparisons and subtraction for sorting; they are modelled as rationals.
The `metadata` field is never read by the modelled methods and is omitted. -/
structure DocumentContext where
  id : List Char
  content : List Char
  title : Option (List Char)
  score : ℚ
  deriving DecidableEq, Repr

/-- `LLMGenerationOptions` from llm.service.ts. -/
structure LLMGenerationOptions where
  maxTokens : Option Nat := none
  temperature : Option ℚ := none
  systemPrompt : Option (List Char) := none
  includeSourceInfo : Bool := false

/-- Stable insertion step for `Array.prototype.sort` with comparator
`(a, b) => b.score - a.score`: `d` is placed before the first element whose
score is not greater than `d`'s.  ECMAScript sort is stable, and this
insertion sort is the stable sort descending by score. -/
def insertByScoreDesc (d : DocumentContext) :
    List DocumentContext → List DocumentContext
  | [] => [d]
  | x :: xs =>
    if d.score < x.score then x :: insertByScoreDesc d xs else d :: x :: xs

/-- `documents.sort((a, b) => b.score - a.score)`: stable sort, descending
by score.  In JavaScript this sorts the caller's array in place; callers of
this model thread the sorted list explicitly as the post-call state of the
caller's array. -/
def sortByScoreDesc (l : List DocumentContext) : List DocumentContext :=
  l.foldr insertByScoreDesc []

/-- Title fallback `doc.title || `Document ${doc.id}``. -/
def docTitleOf (d : DocumentContext) : List Char :=
  d.title.getD ("Document ".data ++ d.id)

/-- The `[Source: <title>]\n` header prepended to each packed document. -/
def docHeaderOf (d : DocumentContext) : List Char :=
  "[Source: ".data ++ docTitleOf d ++ "]\n".data

/-- The `for (const doc of sortedDocuments)` loop of
`LLMService.buildContext`, with the running `context` string and
`currentLength` threaded explicitly.  On overflow it either appends a
truncated prefix of the overflowing document (when more than 100 characters
of usable space remain after a 50-character buffer) or stops. -/
def buildContextLoop (W : Nat) :
    List DocumentContext → List Char → Nat → List Char
  | [], ctx, _ => ctx
  | d :: rest, ctx, curLen =>
    let docHeader := docHeaderOf d
    let docContent := jsTrim d.content ++ "\n\n".data
    let docText := docHeader ++ docContent
    if W < curLen + docText.length then
      let remainingSpace : Int :=
        (W : Int) - (curLen : Int) - (docHeader.length : Int) - 50
      if 100 < remainingSpace then
        ctx ++ docHeader ++ (d.content.take remainingSpace.toNat ++ "...\n\n".data)
      else ctx
    else buildContextLoop W rest (ctx ++ docText) (curLen + docText.length)

/-- `LLMService.buildContext` and the post-call state of the caller's
`documents` array: the code sorts `documents` in place (descending score),
takes the first `maxDocuments`, packs them into the context window of
`contextWindowSize` characters, and returns the trimmed context.  The first
component is the returned string, the second the caller's array after the
in-place sort. -/
def buildContextRun (contextWindowSize maxDocuments : Nat)
    (documents : List DocumentContext) : List Char × List DocumentContext :=
  let sorted := sortByScoreDesc documents
  (jsTrim (buildContextLoop contextWindowSize (sorted.take maxDocuments) [] 0),
   sorted)

/-- The string returned by `LLMService.buildContext`. -/
def buildContext (contextWindowSize maxDocuments : Nat)
    (documents : List DocumentContext) : List Char :=
  (buildContextRun contextWindowSize maxDocuments documents).1

/-- `LLMService.estimateTokens`: `Math.ceil(text.length / 4)`. -/
def estimateTokens (text : List Char) : Nat := (text.length + 3) / 4

/-- The greedy loop of `LLMService.optimizeContextForTokenLimit`. -/
def optimizeLoop (maxTokens : Nat) :
    List DocumentContext → List DocumentContext → Nat → List DocumentContext
  | [], acc, _ => acc
  | d :: rest, acc, totalTokens =>
    let docTokens := estimateTokens d.content
    if totalTokens + docTokens ≤ maxTokens then
      optimizeLoop maxTokens rest (acc ++ [d]) (totalTokens + docTokens)
    else
      let remainingTokens := maxTokens - totalTokens
      if 50 < remainingTokens then
        acc ++ [{ d with content := d.content.take (remainingTokens * 4) ++ "...".data }]
      else acc

/-- `LLMService.optimizeContextForTokenLimit`: sorts the caller's array in
place (descending score) and greedily packs documents, truncating the first
overflowing document when at least 50 tokens of space remain.  Returns the
optimized list and the caller's array after the in-place sort. -/
def optimizeContextForTokenLimit (maxTokens : Nat)
    (documents : List DocumentContext) :
    List DocumentContext × List DocumentContext :=
  let sorted := sortByScoreDesc documents
  (optimizeLoop maxTokens sorted [] 0, sorted)

/-- Fixed reply when no documents were retrieved
(`generateNoContextResponse`). -/
def generateNoContextResponse : List Char :=
  ("I apologize, but I couldn't find any relevant information in the knowledge base to answer your question. Please try rephrasing your query or contact support for assistance with topics not covered in our documentation.").data

/-- Fixed generic fallback reply (`generateFallbackResponse`). -/
def generateFallbackResponse : List Char :=
  ("I encountered an issue while generating a response to your question. Please try asking again, or contact support if the problem persists.").data

/-- Fixed reply for provider status 429. -/
def highDemandResponse : List Char :=
  ("I apologize, but I'm currently experiencing high demand. Please try again in a moment.").data

/-- Fixed reply for provider status 401. -/
def authIssuesResponse : List Char :=
  ("I'm experiencing authentication issues. Please contact support if this persists.").data

/-- A provider error caught by `generateAnswer`'s catch block: `status` is
`some s` when the thrown value is an object with a `status` field (OpenAI
API errors), `none` otherwise. -/
structure LLMError where
  status : Option Int
  deriving DecidableEq, Repr

/-- `LLMService.generateAnswer`.  The outcome of the single
`openai.chat.completions.create` call is passed explicitly: `Except.ok c`
is a response whose `choices[0]?.message?.content` is `c` (`none` when
missing), `Except.error e` a thrown provider error.  When `documents` is
empty the provider is never invoked and the fixed no-context reply is
returned, so `outcome` is unused on that path.  Every path returns a string;
no branch rethrows. -/
def generateAnswer (query : List Char) (documents : List DocumentContext)
    (options : LLMGenerationOptions)
    (outcome : Except LLMError (Option (List Char))) : List Char :=
  if documents.length = 0 then generateNoContextResponse
  else
    match outcome with
    | .ok content? =>
      match content? with
      | none => generateFallbackResponse
      | some c =>
        let answer := jsTrim c
        if answer.length = 0 then generateFallbackResponse else answer
    | .error e =>
      if e.status = some 429 then highDemandResponse
      else if e.status = some 401 then authIssuesResponse
      else generateFallbackResponse

end RagSpec.LLMService

namespace RagSpec.LLMService

/-- C1: for every query, document list and options, with at least one
context document (the only case in which the provider is invoked at all),
`generateAnswer` maps every provider outcome to a user-facing string and
never rethrows: status 429 yields the fixed high-demand message, status 401
the fixed authentication-issue message, any other thrown error the generic
fallback, a missing or all-whitespace response content the generic
fallback, and a non-blank content the trimmed answer itself.  (With an
empty document list the provider is never called and the fixed no-context
message is returned.) -/
theorem generateAnswer_failure_paths (query : List Char)
    (documents : List DocumentContext) (options : LLMGenerationOptions)
    (hdocs : documents ≠ []) :
    generateAnswer query documents options (.error ⟨some 429⟩) =
        highDemandResponse ∧
    generateAnswer query documents options (.error ⟨some 401⟩) =
        authIssuesResponse ∧
    (∀ st : Option Int, st ≠ some 429 → st ≠ some 401 →
      generateAnswer query documents options (.error ⟨st⟩) =
        generateFallbackResponse) ∧
    generateAnswer query documents options (.ok none) =
        generateFallbackResponse ∧
    (∀ c, jsTrim c = [] →
      generateAnswer query documents options (.ok (some c)) =
        generateFallbackResponse) ∧
    (∀ c, jsTrim c ≠ [] →
      generateAnswer query documents options (.ok (some c)) = jsTrim c) := by
  have hlen : ¬ documents.length = 0 := by
    simpa [List.length_eq_zero] using hdocs
  refine ⟨?_, ?_, ?_, ?_, ?_, ?_⟩
  · simp [generateAnswer, hlen]
  · simp [generateAnswer, hlen]
  · intro st h429 h401
    simp [generateAnswer, hlen, h429, h401]
  · simp [generateAnswer, hlen]
  · intro c hc
    simp [generateAnswer, hlen, hc]
  · intro c hc
    have hlc : ¬ (jsTrim c).length = 0 := by
      simpa [List.length_eq_zero] using hc
    simp [generateAnswer, hlen, hlc]

/-- Witness for C1 at concrete inputs: one retrieved document; a 429 error,
a 401 error, a 500 error, a missing content and an all-whitespace content
each map to the corresponding fixed message. -/
theorem generateAnswer_failure_paths_witness :
    generateAnswer "q".data [⟨"d1".data, "Paris.".data, none, (95 : ℚ) / 100⟩]
        {} (.error ⟨some 429⟩) = highDemandResponse ∧
    generateAnswer "q".data [⟨"d1".data, "Paris.".data, none, (95 : ℚ) / 100⟩]
        {} (.error ⟨some 401⟩) = authIssuesResponse ∧
    generateAnswer "q".data [⟨"d1".data, "Paris.".data, none, (95 : ℚ) / 100⟩]
        {} (.error ⟨some 500⟩) = generateFallbackResponse ∧
    generateAnswer "q".data [⟨"d1".data, "Paris.".data, none, (95 : ℚ) / 100⟩]
        {} (.ok none) = generateFallbackResponse ∧
    generateAnswer "q".data [⟨"d1".data, "Paris.".data, none, (95 : ℚ) / 100⟩]
        {} (.ok (some "  ".data)) = generateFallbackResponse := by
  have h := generateAnswer_failure_paths "q".data
    [⟨"d1".data, "Paris.".data, none, (95 : ℚ) / 100⟩] {}
    (List.cons_ne_nil _ _)
  exact ⟨h.1, h.2.1, h.2.2.1 (some 500) (by decide) (by decide), h.2.2.2.1,
    h.2.2.2.2.1 "  ".data (by decide)⟩

theorem jsTrim_length_le (l : List Char) : (jsTrim l).length ≤ l.length := by
  unfold jsTrim
  calc ((l.dropWhile isJsWs).reverse.dropWhile isJsWs).reverse.length
      = ((l.dropWhile isJsWs).reverse.dropWhile isJsWs).length := by
        rw [List.length_reverse]
    _ ≤ (l.dropWhile isJsWs).reverse.length := (List.dropWhile_sublist _).length_le
    _ = (l.dropWhile isJsWs).length := by rw [List.length_reverse]
    _ ≤ l.length := (List.dropWhile_sublist _).length_le

theorem mem_dropWhile_of_mem {c : Char} {l : List Char}
    (hm : c ∈ l) (hc : isJsWs c = false) : c ∈ l.dropWhile isJsWs := by
  have hsplit := List.takeWhile_append_dropWhile (p := isJsWs) (l := l)
  rw [← hsplit] at hm
  rcases List.mem_append.mp hm with h | h
  · exact absurd (List.mem_takeWhile_imp h) (by simp [hc])
  · exact h

theorem jsTrim_ne_nil_of_mem {c : Char} {l : List Char}
    (hm : c ∈ l) (hc : isJsWs c = false) : jsTrim l ≠ [] := by
  intro hnil
  unfold jsTrim at hnil
  have h2 : (l.dropWhile isJsWs).reverse.dropWhile isJsWs = [] := by
    simpa using congrArg List.reverse hnil
  have hmem : c ∈ (l.dropWhile isJsWs).reverse :=
    List.mem_reverse.mpr (mem_dropWhile_of_mem hm hc)
  have := (List.dropWhile_eq_nil_iff).mp h2 c hmem
  simp [hc] at this

theorem buildContextLoop_extends (W : Nat) (ds : List DocumentContext) :
    ∀ ctx len, ∃ s, buildContextLoop W ds ctx len = ctx ++ s := by
  induction ds with
  | nil => intro ctx len; exact ⟨[], by simp [buildContextLoop]⟩
  | cons d rest ih =>
    intro ctx len
    simp only [buildContextLoop]
    split
    · split
      · exact ⟨_, by rw [List.append_assoc]⟩
      · exact ⟨[], by simp⟩
    · obtain ⟨s, hs⟩ := ih (ctx ++ (docHeaderOf d ++ (jsTrim d.content ++ "\n\n".data)))
        (len + (docHeaderOf d ++ (jsTrim d.content ++ "\n\n".data)).length)
      exact ⟨_, by rw [hs, List.append_assoc]⟩

theorem buildContextLoop_length_le (W : Nat) (ds : List DocumentContext) :
    ∀ ctx len, ctx.length = len → len ≤ W →
      (buildContextLoop W ds ctx len).length ≤ W := by
  induction ds with
  | nil => intro ctx len h1 h2; simpa [buildContextLoop, h1] using h2
  | cons d rest ih =>
    intro ctx len h1 h2
    simp only [buildContextLoop]
    split
    · next hover =>
      split
      · next hspace =>
        have hlen5 : ("...\n\n".data).length = 5 := rfl
        have htake : (d.content.take
            ((W : Int) - (len : Int) - ((docHeaderOf d).length : Int) - 50).toNat).length ≤
            ((W : Int) - (len : Int) - ((docHeaderOf d).length : Int) - 50).toNat := by
          simpa using List.length_take_le _ _
        have hcast : ((((W : Int) - (len : Int) - ((docHeaderOf d).length : Int) - 50).toNat : Int)) =
            (W : Int) - (len : Int) - ((docHeaderOf d).length : Int) - 50 :=
          Int.toNat_of_nonneg (by omega)
        simp only [List.length_append, h1, hlen5]
        omega
      · simpa [h1] using h2
    · next hfits =>
      apply ih
      · simp [h1]
      · omega

theorem insertByScoreDesc_length (d : DocumentContext) (l : List DocumentContext) :
    (insertByScoreDesc d l).length = l.length + 1 := by
  induction l with
  | nil => rfl
  | cons x xs ih =>
    simp only [insertByScoreDesc]
    split
    · simp [ih]
    · simp

theorem sortByScoreDesc_length (l : List DocumentContext) :
    (sortByScoreDesc l).length = l.length := by
  induction l with
  | nil => rfl
  | cons x xs ih =>
    simp only [sortByScoreDesc, List.foldr_cons] at *
    rw [insertByScoreDesc_length, ih]
    simp

/-- C3 (amended): the string returned by `buildContext` never exceeds the
context window size `W` (no extra buffer is needed), and for a non-empty
document list the result is non-empty provided `maxDocuments ≥ 1` and the
window admits the top-scored document — either its full
`[Source: ...]`-headed block fits in `W`, or `W` exceeds the block header
length by more than 150 characters so that the truncated-prefix path
applies.  (The unconditional non-emptiness stated by the original claim is
refuted by `buildContext_nonempty_counterexample`.) -/
theorem buildContext_budget_and_nonempty (W maxDocs : Nat)
    (docs : List DocumentContext) :
    (buildContext W maxDocs docs).length ≤ W ∧
    (docs ≠ [] → 1 ≤ maxDocs →
      (∀ d, (sortByScoreDesc docs).head? = some d →
        (docHeaderOf d).length + (jsTrim d.content).length + 2 ≤ W ∨
          ((docHeaderOf d).length : Int) + 150 < (W : Int)) →
      buildContext W maxDocs docs ≠ []) := by
  constructor
  · have h := buildContextLoop_length_le W ((sortByScoreDesc docs).take maxDocs)
      [] 0 rfl (Nat.zero_le W)
    calc (buildContext W maxDocs docs).length
        ≤ (buildContextLoop W ((sortByScoreDesc docs).take maxDocs) [] 0).length :=
          jsTrim_length_le _
      _ ≤ W := h
  · intro hne hmd htop
    obtain ⟨d, rest, hsort⟩ : ∃ d rest, sortByScoreDesc docs = d :: rest := by
      cases hs : sortByScoreDesc docs with
      | nil =>
        exfalso
        have := sortByScoreDesc_length docs
        rw [hs] at this
        exact hne (List.length_eq_zero.mp this.symm)
      | cons d rest => exact ⟨d, rest, rfl⟩
    obtain ⟨m, hm⟩ : ∃ m, maxDocs = m + 1 := ⟨maxDocs - 1, by omega⟩
    have htake : (sortByScoreDesc docs).take maxDocs = d :: rest.take m := by
      rw [hsort, hm, List.take_succ_cons]
    have hhead : isJsWs '[' = false := by decide
    have hdmem : '[' ∈ docHeaderOf d := by
      unfold docHeaderOf
      exact List.mem_append_left _ (List.mem_append_left _ (by decide))
    rcases htop d (by rw [hsort]; rfl) with hfits | hspace
    · -- the whole block fits: the loop keeps the full document text
      have hdoclen : ((docHeaderOf d) ++ (jsTrim d.content ++ "\n\n".data)).length =
          (docHeaderOf d).length + (jsTrim d.content).length + 2 := by
        simp [List.length_append]
        rfl
      unfold buildContext buildContextRun
      simp only [htake]
      rw [show buildContextLoop W (d :: rest.take m) [] 0 =
          if W < 0 + ((docHeaderOf d) ++ (jsTrim d.content ++ "\n\n".data)).length then
            (if 100 < (W : Int) - (0 : Nat) - ((docHeaderOf d).length : Int) - 50 then
              [] ++ docHeaderOf d ++ (d.content.take
                ((W : Int) - (0 : Nat) - ((docHeaderOf d).length : Int) - 50).toNat ++ "...\n\n".data)
            else [])
          else buildContextLoop W (rest.take m)
            ([] ++ ((docHeaderOf d) ++ (jsTrim d.content ++ "\n\n".data)))
            (0 + ((docHeaderOf d) ++ (jsTrim d.content ++ "\n\n".data)).length) from rfl]
      rw [if_neg (by rw [hdoclen]; omega)]
      obtain ⟨s, hs⟩ := buildContextLoop_extends W (rest.take m)
        ([] ++ ((docHeaderOf d) ++ (jsTrim d.content ++ "\n\n".data)))
        (0 + ((docHeaderOf d) ++ (jsTrim d.content ++ "\n\n".data)).length)
      rw [hs]
      apply jsTrim_ne_nil_of_mem (c := '[') _ hhead
      simp [hdmem]
    · -- truncated-prefix path (or the full block fits anyway)
      unfold buildContext buildContextRun
      simp only [htake]
      rw [show buildContextLoop W (d :: rest.take m) [] 0 =
          if W < 0 + ((docHeaderOf d) ++ (jsTrim d.content ++ "\n\n".data)).length then
            (if 100 < (W : Int) - (0 : Nat) - ((docHeaderOf d).length : Int) - 50 then
              [] ++ docHeaderOf d ++ (d.content.take
                ((W : Int) - (0 : Nat) - ((docHeaderOf d).length : Int) - 50).toNat ++ "...\n\n".data)
            else [])
          else buildContextLoop W (rest.take m)
            ([] ++ ((docHeaderOf d) ++ (jsTrim d.content ++ "\n\n".data)))
            (0 + ((docHeaderOf d) ++ (jsTrim d.content ++ "\n\n".data)).length) from rfl]
      split
      · rw [if_pos (by push_cast; omega)]
        apply jsTrim_ne_nil_of_mem (c := '[') _ hhead
        simp [hdmem]
      · obtain ⟨s, hs⟩ := buildContextLoop_extends W (rest.take m)
          ([] ++ ((docHeaderOf d) ++ (jsTrim d.content ++ "\n\n".data)))
          (0 + ((docHeaderOf d) ++ (jsTrim d.content ++ "\n\n".data)).length)
        rw [hs]
        apply jsTrim_ne_nil_of_mem (c := '[') _ hhead
        simp [hdmem]

set_option maxRecDepth 4000 in
/-- C3 counterexample: the original claim's unconditional non-emptiness
fails — with window size 100 and a single 200-character document the
header-plus-content block overflows, the remaining space (100 - 21 - 50 =
29) is below the 100-character threshold, and `buildContext` returns the
empty string for a non-empty document list. -/
theorem buildContext_nonempty_counterexample :
    ([⟨"1".data, List.replicate 200 'a', none, (1 : ℚ)⟩] :
        List DocumentContext) ≠ [] ∧
    buildContext 100 5 [⟨"1".data, List.replicate 200 'a', none, (1 : ℚ)⟩] = [] := by
  exact ⟨List.cons_ne_nil _ _, by decide⟩

/-- Witness for C3 at concrete inputs: with the default window size 4000
and default maximum of 5 documents, a single short document yields a
non-empty context of length at most 4000. -/
theorem buildContext_budget_and_nonempty_witness :
    (buildContext 4000 5 [⟨"1".data, "Short content.".data, none, (1 : ℚ)⟩]).length ≤ 4000 ∧
    buildContext 4000 5 [⟨"1".data, "Short content.".data, none, (1 : ℚ)⟩] ≠ [] := by
  have h := buildContext_budget_and_nonempty 4000 5
    [⟨"1".data, "Short content.".data, none, (1 : ℚ)⟩]
  refine ⟨h.1, h.2 (List.cons_ne_nil _ _) (by omega) ?_⟩
  intro d hd
  have hd0 : d = ⟨"1".data, "Short content.".data, none, (1 : ℚ)⟩ := by
    have : (some ⟨"1".data, "Short content.".data, none, (1 : ℚ)⟩ :
        Option DocumentContext) = some d := hd
    exact (Option.some.inj this).symm
  subst hd0
  left
  decide

/-- C10: `buildContext` and `optimizeContextForTokenLimit` sort the
caller-supplied `documents` array in place via `Array.prototype.sort`:
for the concrete two-element array in ascending score order, the caller's
array after either call is reordered descending by score rather than left
unchanged. -/
theorem callerArray_sorted_in_place :
    (buildContextRun 4000 5
        [⟨"a".data, "low score doc".data, none, (1 : ℚ)⟩,
         ⟨"b".data, "high score doc".data, none, (2 : ℚ)⟩]).2 =
      [⟨"b".data, "high score doc".data, none, (2 : ℚ)⟩,
       ⟨"a".data, "low score doc".data, none, (1 : ℚ)⟩] ∧
    (buildContextRun 4000 5
        [⟨"a".data, "low score doc".data, none, (1 : ℚ)⟩,
         ⟨"b".data, "high score doc".data, none, (2 : ℚ)⟩]).2 ≠
      [⟨"a".data, "low score doc".data, none, (1 : ℚ)⟩,
       ⟨"b".data, "high score doc".data, none, (2 : ℚ)⟩] ∧
    (optimizeContextForTokenLimit 1000
        [⟨"a".data, "low score doc".data, none, (1 : ℚ)⟩,
         ⟨"b".data, "high score doc".data, none, (2 : ℚ)⟩]).2 =
      [⟨"b".data, "high score doc".data, none, (2 : ℚ)⟩,
       ⟨"a".data, "low score doc".data, none, (1 : ℚ)⟩] ∧
    (optimizeContextForTokenLimit 1000
        [⟨"a".data, "low score doc".data, none, (1 : ℚ)⟩,
         ⟨"b".data, "high score doc".data, none, (2 : ℚ)⟩]).2 ≠
      [⟨"a".data, "low score doc".data, none, (1 : ℚ)⟩,
       ⟨"b".data, "high score doc".data, none, (2 : ℚ)⟩] := by
  refine ⟨by decide, by decide, by decide, by decide⟩

end RagSpec.LLMService

namespace RagSpec.TextChunkingService

/-- `ChunkingStrategy` enum of the document-processing interfaces. -/
inductive ChunkingStrategy where
  | FIXED_SIZE
  | SENTENCE_BOUNDARY
  | SEMANTIC
  | TOKEN_AWARE
  deriving DecidableEq, Repr

/-- `ChunkingOptions`: sizes are JS numbers, taken as integers here so that
the non-positive window step `maxChunkSize - overlapSize` is representable.
The optional `preserveFormatting` / `respectSentenceBoundaries` flags are
never read by the service and are omitted. -/
structure ChunkingOptions where
  strategy : ChunkingStrategy
  maxChunkSize : Int
  overlapSize : Int
  deriving DecidableEq, Repr

/-- `DocumentChunk.metadata`. -/
structure ChunkMetadata where
  sourceFile : List Char
  chunkIndex : Nat
  totalChunks : Nat
  startPosition : Option Int
  endPosition : Option Int
  tokenCount : Nat
  chunkingStrategy : ChunkingStrategy
  deriving DecidableEq, Repr

/-- `DocumentChunk`. -/
structure DocumentChunk where
  id : List Char
  content : List Char
  metadata : ChunkMetadata
  deriving DecidableEq, Repr

/-- `TextChunkingService.estimateTokenCount`: `Math.ceil(text.length / 4)`. -/
def estimateTokenCount (text : List Char) : Nat := (text.length + 3) / 4

/-- `TextChunkingService.createChunk`: the id is
`` `${documentId}_chunk_${index}` `` and the content is trimmed; the token
count is estimated on the untrimmed content and `totalChunks` is left 0 to
be back-filled later. -/
def createChunk (content : List Char) (index : Nat)
    (documentId sourceFile : List Char) (strategy : ChunkingStrategy)
    (startPosition endPosition : Option Int) : DocumentChunk :=
  { id := documentId ++ "_chunk_".data ++ (Nat.repr index).data
    content := jsTrim content
    metadata :=
      { sourceFile := sourceFile
        chunkIndex := index
        totalChunks := 0
        startPosition := startPosition
        endPosition := endPosition
        tokenCount := estimateTokenCount content
        chunkingStrategy := strategy } }

/-- `TextChunkingService.updateTotalChunks`: second pass rewriting every
chunk's `totalChunks` to the final count. -/
def updateTotalChunks (chunks : List DocumentChunk) : List DocumentChunk :=
  chunks.map fun c =>
    { c with metadata := { c.metadata with totalChunks := chunks.length } }

/-- JavaScript `String.prototype.slice` with integer arguments (negative
indices count from the end, out-of-range indices clamp). -/
def jsSlice (l : List Char) (start stop : Int) : List Char :=
  let len : Int := l.length
  let s := if start < 0 then max (len + start) 0 else min start len
  let e := if stop < 0 then max (len + stop) 0 else min stop len
  (l.take e.toNat).drop s.toNat

/-- The `for (let i = 0; i < text.length; i += step)` loop of
`TextChunkingService.fixedSizeChunking`, with explicit fuel: `none` means
the fuel was exhausted, i.e. the loop is still running — with a
non-positive step the loop never terminates and the result is `none` for
every fuel. -/
def fixedSizeGo (text : List Char) (maxChunkSize step : Int)
    (documentId sourceFile : List Char) (strategy : ChunkingStrategy) :
    Int → List DocumentChunk → Nat → Option (List DocumentChunk)
  | _, _, 0 => none
  | i, chunks, fuel + 1 =>
    if i < (text.length : Int) then
      let e := min (i + maxChunkSize) (text.length : Int)
      let chunkContent := jsSlice text i e
      let chunks' :=
        if (jsTrim chunkContent).length = 0 then chunks
        else chunks ++ [createChunk chunkContent chunks.length documentId
          sourceFile strategy (some i) (some e)]
      fixedSizeGo text maxChunkSize step documentId sourceFile strategy
        (i + step) chunks' fuel
    else some chunks

/-- `TextChunkingService.fixedSizeChunking`: character window of
`maxChunkSize` advanced by `step = maxChunkSize - overlapSize`, skipping
windows that are empty after trim, then the `totalChunks` back-fill. -/
def fixedSizeChunking (fuel : Nat) (text : List Char)
    (options : ChunkingOptions) (documentId sourceFile : List Char) :
    Option (List DocumentChunk) :=
  (fixedSizeGo text options.maxChunkSize
      (options.maxChunkSize - options.overlapSize) documentId sourceFile
      options.strategy 0 [] fuel).map updateTotalChunks

/-- Sentence-terminator class `[.!?]`. -/
def isSentEnd (c : Char) : Bool := c = '.' || c = '!' || c = '?'

/-- `text.split(/[.!?]+/)`: split on maximal runs of sentence terminators,
keeping empty segments (they are filtered afterwards, as in the source).  A
terminator directly followed by another terminator belongs to the same run
and contributes no extra segment. -/
def splitSentences : List Char → List (List Char)
  | [] => [[]]
  | c :: rest =>
    if isSentEnd c then
      match rest with
      | r :: _ =>
        if isSentEnd r then splitSentences rest
        else [] :: splitSentences rest
      | [] => [] :: splitSentences rest
    else
      match splitSentences rest with
      | [] => [[c]]
      | s :: ss => (c :: s) :: ss

/-- The `for (const sentence of sentences)` packing loop of
`TextChunkingService.sentenceBoundaryChunking` plus the final
`if (currentChunk)` push, with `currentChunk`, `startPosition` and the
accumulated `chunks` threaded explicitly. -/
def sentencePackLoop (maxChunkSize : Int)
    (documentId sourceFile : List Char) (strategy : ChunkingStrategy) :
    List (List Char) → List Char → Nat → List DocumentChunk →
      List DocumentChunk
  | [], currentChunk, startPosition, chunks =>
    if currentChunk.length = 0 then chunks
    else chunks ++ [createChunk currentChunk chunks.length documentId
      sourceFile strategy (some (startPosition : Int))
      (some ((startPosition + currentChunk.length : Nat) : Int))]
  | sentence :: rest, currentChunk, startPosition, chunks =>
    let trimmedSentence := jsTrim sentence
    if trimmedSentence.length = 0 then
      sentencePackLoop maxChunkSize documentId sourceFile strategy rest
        currentChunk startPosition chunks
    else
      let potentialChunk := currentChunk ++
        (if currentChunk.length = 0 then [] else ". ".data) ++ trimmedSentence
      if (potentialChunk.length : Int) ≤ maxChunkSize then
        sentencePackLoop maxChunkSize documentId sourceFile strategy rest
          potentialChunk startPosition chunks
      else
        if currentChunk.length = 0 then
          sentencePackLoop maxChunkSize documentId sourceFile strategy rest
            trimmedSentence startPosition chunks
        else
          sentencePackLoop maxChunkSize documentId sourceFile strategy rest
            trimmedSentence (startPosition + currentChunk.length)
            (chunks ++ [createChunk currentChunk chunks.length documentId
              sourceFile strategy (some (startPosition : Int))
              (some ((startPosition + currentChunk.length : Nat) : Int))])

/-- `TextChunkingService.sentenceBoundaryChunking`: split on `[.!?]+`,
filter blank sentences, greedily pack, then back-fill `totalChunks`. -/
def sentenceBoundaryChunking (text : List Char) (options : ChunkingOptions)
    (documentId sourceFile : List Char) : List DocumentChunk :=
  let sentences := (splitSentences text).filter fun s => 0 < (jsTrim s).length
  updateTotalChunks (sentencePackLoop options.maxChunkSize documentId
    sourceFile options.strategy sentences [] 0 [])

/-- `TextChunkingService.semanticChunking`: not implemented; logs a warning
and falls back to sentence-boundary chunking. -/
def semanticChunking (text : List Char) (options : ChunkingOptions)
    (documentId sourceFile : List Char) : List DocumentChunk :=
  sentenceBoundaryChunking text options documentId sourceFile

/-- `TextChunkingService.tokenAwareChunking`: not implemented (`TODO:
Implement token-aware chunking using tiktoken`); logs a warning and falls
back to fixed-size chunking. -/
def tokenAwareChunking (fuel : Nat) (text : List Char)
    (options : ChunkingOptions) (documentId sourceFile : List Char) :
    Option (List DocumentChunk) :=
  fixedSizeChunking fuel text options documentId sourceFile

/-- `TextChunkingService.chunkText`: dispatch on the strategy. -/
def chunkText (fuel : Nat) (text : List Char) (options : ChunkingOptions)
    (documentId sourceFile : List Char) : Option (List DocumentChunk) :=
  match options.strategy with
  | .FIXED_SIZE => fixedSizeChunking fuel text options documentId sourceFile
  | .SENTENCE_BOUNDARY =>
    some (sentenceBoundaryChunking text options documentId sourceFile)
  | .SEMANTIC => some (semanticChunking text options documentId sourceFile)
  | .TOKEN_AWARE => tokenAwareChunking fuel text options documentId sourceFile

end RagSpec.TextChunkingService

namespace RagSpec.TextChunkingService

/-- The chunks accumulated so far carry sequential indices `0, 1, ...` in
emission order, with the id derived from the index. -/
def WellIndexed (documentId : List Char) (cs : List DocumentChunk) : Prop :=
  ∀ i (hi : i < cs.length),
    (cs.get ⟨i, hi⟩).metadata.chunkIndex = i ∧
    (cs.get ⟨i, hi⟩).id = documentId ++ "_chunk_".data ++ (Nat.repr i).data

theorem wellIndexed_nil (documentId : List Char) : WellIndexed documentId [] := by
  intro i hi
  simp at hi

theorem wellIndexed_append {documentId : List Char} {cs : List DocumentChunk}
    (h : WellIndexed documentId cs) (content sourceFile : List Char)
    (strategy : ChunkingStrategy) (sp ep : Option Int) :
    WellIndexed documentId
      (cs ++ [createChunk content cs.length documentId sourceFile strategy sp ep]) := by
  intro i hi
  rw [List.length_append, List.length_singleton] at hi
  by_cases hlt : i < cs.length
  · have hget : (cs ++ [createChunk content cs.length documentId sourceFile
        strategy sp ep]).get ⟨i, by simp; omega⟩ = cs.get ⟨i, hlt⟩ :=
      List.get_append i hlt
    rw [hget]
    exact h i hlt
  · have hieq : i = cs.length := by omega
    subst hieq
    have hget : (cs ++ [createChunk content cs.length documentId sourceFile
        strategy sp ep]).get ⟨cs.length, by simp⟩ =
        createChunk content cs.length documentId sourceFile strategy sp ep := by
      simp
    rw [hget]
    exact ⟨rfl, rfl⟩

theorem fixedSizeGo_wellIndexed (text : List Char) (m step : Int)
    (documentId sourceFile : List Char) (strategy : ChunkingStrategy) :
    ∀ (fuel : Nat) (i : Int) (chunks cs : List DocumentChunk),
      WellIndexed documentId chunks →
      fixedSizeGo text m step documentId sourceFile strategy i chunks fuel =
        some cs →
      WellIndexed documentId cs := by
  intro fuel
  induction fuel with
  | zero => intro i chunks cs _ hgo; simp [fixedSizeGo] at hgo
  | succ f ih =>
    intro i chunks cs hwi hgo
    simp only [fixedSizeGo] at hgo
    split at hgo
    · split at hgo
      · exact ih _ _ _ hwi hgo
      · exact ih _ _ _ (wellIndexed_append hwi _ _ _ _ _) hgo
    · cases hgo
      exact hwi

theorem sentencePackLoop_wellIndexed (m : Int)
    (documentId sourceFile : List Char) (strategy : ChunkingStrategy) :
    ∀ (sentences : List (List Char)) (currentChunk : List Char)
      (startPosition : Nat) (chunks : List DocumentChunk),
      WellIndexed documentId chunks →
      WellIndexed documentId
        (sentencePackLoop m documentId sourceFile strategy sentences
          currentChunk startPosition chunks) := by
  intro sentences
  induction sentences with
  | nil =>
    intro currentChunk startPosition chunks hwi
    rw [sentencePackLoop]
    split
    · exact hwi
    · exact wellIndexed_append hwi _ _ _ _ _
  | cons sentence rest ih =>
    intro currentChunk startPosition chunks hwi
    simp only [sentencePackLoop]
    repeat' split
    all_goals first
      | exact ih _ _ _ hwi
      | exact ih _ _ _ (wellIndexed_append hwi _ _ _ _ _)

theorem updateTotalChunks_spec (documentId : List Char)
    (cs : List DocumentChunk) (h : WellIndexed documentId cs) :
    ∀ i (hi : i < (updateTotalChunks cs).length),
      ((updateTotalChunks cs).get ⟨i, hi⟩).metadata.totalChunks =
        (updateTotalChunks cs).length ∧
      ((updateTotalChunks cs).get ⟨i, hi⟩).metadata.chunkIndex = i ∧
      ((updateTotalChunks cs).get ⟨i, hi⟩).id =
        documentId ++ "_chunk_".data ++ (Nat.repr i).data := by
  intro i hi
  have hlen : (updateTotalChunks cs).length = cs.length := by
    simp [updateTotalChunks]
  have hilt : i < cs.length := hlen ▸ hi
  have hget : (updateTotalChunks cs).get ⟨i, hi⟩ =
      { cs.get ⟨i, hilt⟩ with metadata :=
        { (cs.get ⟨i, hilt⟩).metadata with totalChunks := cs.length } } := by
    simp [updateTotalChunks]
  rw [hget, hlen]
  exact ⟨rfl, (h i hilt).1, (h i hilt).2⟩

/-- C9: for every chunking call that returns (any strategy, any fuel making
the fixed-size loop terminate), every produced chunk's `totalChunks` equals
the number `k` of produced chunks, the `chunkIndex` values in emission
order are exactly `0, ..., k-1`, and each id is
`"<documentId>_chunk_<chunkIndex>"`. -/
theorem chunkText_metadata (fuel : Nat) (text : List Char)
    (options : ChunkingOptions) (documentId sourceFile : List Char)
    (cs : List DocumentChunk)
    (h : chunkText fuel text options documentId sourceFile = some cs) :
    ∀ i (hi : i < cs.length),
      (cs.get ⟨i, hi⟩).metadata.totalChunks = cs.length ∧
      (cs.get ⟨i, hi⟩).metadata.chunkIndex = i ∧
      (cs.get ⟨i, hi⟩).id =
        documentId ++ "_chunk_".data ++ (Nat.repr i).data := by
  have main : ∀ base : List DocumentChunk, WellIndexed documentId base →
      cs = updateTotalChunks base →
      ∀ i (hi : i < cs.length),
        (cs.get ⟨i, hi⟩).metadata.totalChunks = cs.length ∧
        (cs.get ⟨i, hi⟩).metadata.chunkIndex = i ∧
        (cs.get ⟨i, hi⟩).id =
          documentId ++ "_chunk_".data ++ (Nat.repr i).data := by
    intro base hwi hcs
    subst hcs
    exact updateTotalChunks_spec documentId base hwi
  unfold chunkText at h
  cases hstrat : options.strategy with
  | FIXED_SIZE =>
    rw [hstrat] at h
    unfold fixedSizeChunking at h
    obtain ⟨base, hbase, hcs⟩ := Option.map_eq_some'.mp h
    exact main base
      (fixedSizeGo_wellIndexed text _ _ _ _ _ fuel 0 [] base
        (wellIndexed_nil _) hbase) hcs.symm
  | SENTENCE_BOUNDARY =>
    rw [hstrat] at h
    cases h
    exact main _ (sentencePackLoop_wellIndexed _ _ _ _ _ _ _ _
      (wellIndexed_nil _)) rfl
  | SEMANTIC =>
    rw [hstrat] at h
    cases h
    exact main _ (sentencePackLoop_wellIndexed _ _ _ _ _ _ _ _
      (wellIndexed_nil _)) rfl
  | TOKEN_AWARE =>
    rw [hstrat] at h
    unfold tokenAwareChunking fixedSizeChunking at h
    obtain ⟨base, hbase, hcs⟩ := Option.map_eq_some'.mp h
    exact main base
      (fixedSizeGo_wellIndexed text _ _ _ _ _ fuel 0 [] base
        (wellIndexed_nil _) hbase) hcs.symm

end RagSpec.TextChunkingService

namespace RagSpec.TextChunkingService

/-- Witness for C9 at concrete inputs: sentence-boundary chunking of
`"Hi there. Bye."` with `maxChunkSize 9` produces two chunks, each carrying
`totalChunks = 2`, sequential indices 0 and 1, and ids `doc_chunk_0`,
`doc_chunk_1`. -/
theorem chunkText_metadata_witness :
    chunkText 1 "Hi there. Bye.".data ⟨.SENTENCE_BOUNDARY, 9, 0⟩
        "doc".data "f.txt".data = some
      [⟨"doc_chunk_0".data, "Hi there".data,
        ⟨"f.txt".data, 0, 2, some 0, some 8, 2, .SENTENCE_BOUNDARY⟩⟩,
       ⟨"doc_chunk_1".data, "Bye".data,
        ⟨"f.txt".data, 1, 2, some 8, some 11, 1, .SENTENCE_BOUNDARY⟩⟩] ∧
    (([⟨"doc_chunk_0".data, "Hi there".data,
        ⟨"f.txt".data, 0, 2, some 0, some 8, 2, .SENTENCE_BOUNDARY⟩⟩,
       ⟨"doc_chunk_1".data, "Bye".data,
        ⟨"f.txt".data, 1, 2, some 8, some 11, 1, .SENTENCE_BOUNDARY⟩⟩] :
        List DocumentChunk).get ⟨0, by decide⟩).metadata.totalChunks = 2 ∧
    (([⟨"doc_chunk_0".data, "Hi there".data,
        ⟨"f.txt".data, 0, 2, some 0, some 8, 2, .SENTENCE_BOUNDARY⟩⟩,
       ⟨"doc_chunk_1".data, "Bye".data,
        ⟨"f.txt".data, 1, 2, some 8, some 11, 1, .SENTENCE_BOUNDARY⟩⟩] :
        List DocumentChunk).get ⟨1, by decide⟩).metadata.chunkIndex = 1 ∧
    (([⟨"doc_chunk_0".data, "Hi there".data,
        ⟨"f.txt".data, 0, 2, some 0, some 8, 2, .SENTENCE_BOUNDARY⟩⟩,
       ⟨"doc_chunk_1".data, "Bye".data,
        ⟨"f.txt".data, 1, 2, some 8, some 11, 1, .SENTENCE_BOUNDARY⟩⟩] :
        List DocumentChunk).get ⟨1, by decide⟩).id =
      "doc".data ++ "_chunk_".data ++ (Nat.repr 1).data := by
  have h : chunkText 1 "Hi there. Bye.".data ⟨.SENTENCE_BOUNDARY, 9, 0⟩
      "doc".data "f.txt".data = some
      [⟨"doc_chunk_0".data, "Hi there".data,
        ⟨"f.txt".data, 0, 2, some 0, some 8, 2, .SENTENCE_BOUNDARY⟩⟩,
       ⟨"doc_chunk_1".data, "Bye".data,
        ⟨"f.txt".data, 1, 2, some 8, some 11, 1, .SENTENCE_BOUNDARY⟩⟩] := by
    decide
  have hmeta := chunkText_metadata 1 "Hi there. Bye.".data
    ⟨.SENTENCE_BOUNDARY, 9, 0⟩ "doc".data "f.txt".data _ h
  exact ⟨h, (hmeta 0 (by decide)).1, (hmeta 1 (by decide)).2.1,
    (hmeta 1 (by decide)).2.2⟩

theorem fixedSizeGo_none_of_nonpos_step (text : List Char) (m step : Int)
    (documentId sourceFile : List Char) (strategy : ChunkingStrategy)
    (hstep : step ≤ 0) :
    ∀ (fuel : Nat) (i : Int) (chunks : List DocumentChunk),
      i < (text.length : Int) →
      fixedSizeGo text m step documentId sourceFile strategy i chunks fuel =
        none := by
  intro fuel
  induction fuel with
  | zero => intro i chunks _; rfl
  | succ f ih =>
    intro i chunks hi
    simp only [fixedSizeGo, if_pos hi]
    exact ih _ _ (by omega)

/-- C7 (actual code behaviour at the failing input): with
`overlapSize = maxChunkSize` the window step is 0 and on non-empty text the
`for` loop of the fixed-size strategy never terminates — for every fuel the
loop is still running (`none`); no error is thrown on this path (the model
has no error outcome at all, mirroring the absence of any validation in the
source). -/
theorem fixedSizeChunking_nonpositive_step_diverges :
    ∀ fuel : Nat,
      chunkText fuel "ab".data ⟨.FIXED_SIZE, 2, 2⟩ "doc".data "f".data =
        none := by
  intro fuel
  have h := fixedSizeGo_none_of_nonpos_step "ab".data 2 (2 - 2) "doc".data
    "f".data .FIXED_SIZE (by norm_num) fuel 0 [] (by decide)
  norm_num at h
  simp [chunkText, fixedSizeChunking, h]

/-- C4 (actual code behaviour): `tokenAwareChunking` is a verbatim fallback
to `fixedSizeChunking` for all inputs, and at the concrete input
`"Hello world. Goodbye moon."` with `maxChunkSize 16` it produces the
character-window chunks `"Hello world. Goo"` / `"dbye moon."` — the first
chunk cuts mid-word and mid-sentence and the sizes are character counts,
not token counts, refuting the claimed token-measured sentence packing. -/
theorem tokenAware_falls_back_to_fixed_size :
    (∀ (fuel : Nat) (text : List Char) (options : ChunkingOptions)
        (documentId sourceFile : List Char),
      tokenAwareChunking fuel text options documentId sourceFile =
        fixedSizeChunking fuel text options documentId sourceFile) ∧
    chunkText 10 "Hello world. Goodbye moon.".data ⟨.TOKEN_AWARE, 16, 0⟩
        "d".data "f".data = some
      [⟨"d_chunk_0".data, "Hello world. Goo".data,
        ⟨"f".data, 0, 2, some 0, some 16, 4, .TOKEN_AWARE⟩⟩,
       ⟨"d_chunk_1".data, "dbye moon.".data,
        ⟨"f".data, 1, 2, some 16, some 26, 3, .TOKEN_AWARE⟩⟩] := by
  constructor
  · intro fuel text options documentId sourceFile
    rfl
  · decide

end RagSpec.TextChunkingService

namespace RagSpec

/-- The `for (let i = 0; i < items.length; i += 100)` slicing pattern used
for provider sub-batches (`validTexts.slice(i, i + 100)` in the embedding
service, `documents.slice(i, i + batchSize)` with the default batch size
100 in the vector service): successive slices of 100 items. -/
def subBatches100 {α : Type} : List α → List (List α)
  | [] => []
  | t :: rest => (t :: rest.take 99) :: subBatches100 (rest.drop 99)
termination_by l => l.length
decreasing_by
  simp only [List.length_cons]
  have := (List.drop_sublist 99 rest).length_le
  omega

theorem subBatches100_ne_nil {α : Type} :
    ∀ l : List α, ∀ b ∈ subBatches100 l, b ≠ [] := by
  intro l
  induction l using subBatches100.induct with
  | case1 => intro b hb; simp [subBatches100] at hb
  | case2 t rest ih =>
    intro b hb
    rw [subBatches100] at hb
    rcases List.mem_cons.mp hb with h | h
    · subst h; exact List.cons_ne_nil _ _
    · exact ih b h

end RagSpec

namespace RagSpec.EmbeddingService

/-- Error message thrown when a provider response carries no data. -/
def noDataMsg : List Char := "No embedding data received from OpenAI".data

/-- Error message thrown when no non-blank texts remain after filtering. -/
def noValidMsg : List Char :=
  "No valid texts provided for embedding generation".data

/-- The sub-batch loop of `EmbeddingService.generateEmbeddings`: call the
provider on each 100-element slice in order, throw on a call failure or an
empty data array, and append the returned embeddings in submission order. -/
def embedBatchLoop
    (call : List (List Char) → Except (List Char) (List (List ℚ))) :
    List (List (List Char)) → Except (List Char) (List (List ℚ))
  | [] => .ok []
  | b :: bs =>
    match call b with
    | .error e => .error e
    | .ok data =>
      if data.length = 0 then .error noDataMsg
      else
        match embedBatchLoop call bs with
        | .error e => .error e
        | .ok more => .ok (data ++ more)

/-- `EmbeddingService.generateEmbeddings` (rag embedding service): an empty
input list returns `[]` immediately; otherwise blank texts are filtered
out, an empty filtered list raises the no-valid-texts error, and the
filtered texts are submitted in sub-batches of 100 whose results are
concatenated.  Errors thrown inside the try block are re-wrapped with the
`Failed to generate embeddings: ` message. -/
def generateEmbeddings
    (call : List (List Char) → Except (List Char) (List (List ℚ)))
    (texts : List (List Char)) : Except (List Char) (List (List ℚ)) :=
  if texts.length = 0 then .ok []
  else
    let validTexts := texts.filter fun t => 0 < (jsTrim t).length
    if validTexts.length = 0 then .error noValidMsg
    else
      match embedBatchLoop call (subBatches100 validTexts) with
      | .error e => .error ("Failed to generate embeddings: ".data ++ e)
      | .ok embeddings => .ok embeddings

/-- C6 counterexample: calling the batch embedding with an empty input list
returns `ok []` without invoking the provider at all (the provider mock
here fails on any call), not an `InvalidInput` error as the claim states —
the repository's own test ("should return empty array for empty input")
pins this behaviour. -/
theorem generateEmbeddings_empty_input_counterexample :
    generateEmbeddings (fun _ => Except.error "provider called".data) [] =
      Except.ok [] := by
  rfl

theorem embedBatchLoop_pure (f : List (List Char) → List (List ℚ)) :
    ∀ bs : List (List (List Char)), (∀ b ∈ bs, f b ≠ []) →
      embedBatchLoop (fun b => .ok (f b)) bs = .ok (List.flatten (bs.map f)) := by
  intro bs
  induction bs with
  | nil => intro _; rfl
  | cons b rest ih =>
    intro h
    have hb : f b ≠ [] := h b (by simp)
    have hlen : ¬ (f b).length = 0 := by
      simpa [List.length_eq_zero] using hb
    simp only [embedBatchLoop, if_neg hlen,
      ih (fun x hx => h x (List.mem_cons_of_mem _ hx))]
    simp

/-- C6 (amended): `generateEmbeddings` removes blank entries; an empty
INPUT list short-circuits to `ok []` without any provider call; a
non-empty input whose filtered list is empty fails with the
no-valid-texts (`InvalidInput`) error; and a non-empty filtered list is
submitted to the provider in fixed-size sub-batches of 100 whose results
are concatenated in submission order (stated for a provider that returns a
non-empty embedding list per non-empty batch, as the real API does). -/
theorem generateEmbeddings_batching
    (f : List (List Char) → List (List ℚ))
    (hf : ∀ b, b ≠ [] → f b ≠ [])
    (texts : List (List Char)) :
    (texts = [] → generateEmbeddings (fun b => .ok (f b)) texts = .ok []) ∧
    (texts ≠ [] → texts.filter (fun t => 0 < (jsTrim t).length) = [] →
      generateEmbeddings (fun b => .ok (f b)) texts = .error noValidMsg) ∧
    (texts.filter (fun t => 0 < (jsTrim t).length) ≠ [] →
      generateEmbeddings (fun b => .ok (f b)) texts =
        .ok (List.flatten
          ((subBatches100 (texts.filter fun t => 0 < (jsTrim t).length)).map f))) := by
  refine ⟨?_, ?_, ?_⟩
  · intro h; subst h; rfl
  · intro h1 h2
    have hlen : ¬ texts.length = 0 := by
      simpa [List.length_eq_zero] using h1
    simp [generateEmbeddings, hlen, h2]
  · intro h3
    have h1 : texts ≠ [] := by
      intro h; subst h; simp at h3
    have hlen : ¬ texts.length = 0 := by
      simpa [List.length_eq_zero] using h1
    have hvlen : ¬ (texts.filter fun t => 0 < (jsTrim t).length).length = 0 := by
      simpa [List.length_eq_zero] using h3
    have hloop := embedBatchLoop_pure f
      (subBatches100 (texts.filter fun t => 0 < (jsTrim t).length))
      (fun b hb => hf b (subBatches100_ne_nil _ b hb))
    simp [generateEmbeddings, hlen, hvlen, hloop]

/-- Witness for C6 at concrete inputs: three texts, one blank, with a
provider returning a fixed embedding per text: the blank entry is dropped,
the two remaining texts go out in a single batch of 100, and the result
concatenates in order; the empty-filtered case errors. -/
theorem generateEmbeddings_batching_witness :
    generateEmbeddings
        (fun b => .ok (b.map (fun _ => [(1 : ℚ)])))
        ["hello".data, " ".data, "world".data] =
      .ok [[(1 : ℚ)], [(1 : ℚ)]] ∧
    generateEmbeddings
        (fun b => .ok (b.map (fun _ => [(1 : ℚ)])))
        [" ".data] = .error noValidMsg := by
  constructor
  · have h := (generateEmbeddings_batching
      (fun b => b.map (fun _ => [(1 : ℚ)]))
      (fun b hb => by simpa using hb)
      ["hello".data, " ".data, "world".data]).2.2 (by decide)
    have hfil : (["hello".data, " ".data, "world".data].filter
        (fun t => 0 < (jsTrim t).length)) = ["hello".data, "world".data] := by
      decide
    rw [h, hfil]
    simp [subBatches100]
  · exact (generateEmbeddings_batching
      (fun b => b.map (fun _ => [(1 : ℚ)]))
      (fun b hb => by simpa using hb)
      [" ".data]).2.1 (by decide) (by decide)

end RagSpec.EmbeddingService

namespace RagSpec.VectorService

/-- A document handed to the batch store API (`VectorDocument`): the
`metadata` blob is opaque here and `embedding` may be absent. -/
structure VectorDocument where
  id : List Char
  content : List Char
  metadata : Option (List Char)
  embedding : Option (List ℚ)
  deriving DecidableEq, Repr

/-- The payload attached to an upserted point: `storeDocument` forwards the
caller's metadata verbatim, while `storeDocumentsBatch` builds
`{content, timestamp, metadata?}`. -/
inductive QdrantPayload where
  | raw (metadata : List Char)
  | doc (content : List Char) (timestamp : List Char) (metadata : Option (List Char))
  deriving DecidableEq, Repr

/-- One point of an upsert request body. -/
structure QdrantPoint where
  id : List Char
  vector : List ℚ
  payload : QdrantPayload
  deriving DecidableEq, Repr

/-- A network request issued to the Qdrant client. -/
inductive QdrantRequest where
  | upsert (collectionName : List Char) (points : List QdrantPoint)
  deriving DecidableEq, Repr

/-- `VectorService.storeDocument`: no client-side validation of any kind —
the upsert network call is issued directly with whatever embedding the
caller supplies.  Returns the request trace and the outcome (assuming the
store accepts the request). -/
def storeDocument (collectionName documentId : List Char)
    (embedding : List ℚ) (metadata : List Char) :
    List QdrantRequest × Except (List Char) Unit :=
  ([.upsert collectionName [⟨documentId, embedding, .raw metadata⟩]],
   .ok ())

/-- `VectorService.storeDocumentsBatch` with the default `batchSize = 100`:
returns `ok` immediately on an empty list; fails before any network call
when some document has no embedding at all (`!doc.embedding`); otherwise
issues one upsert request per 100-document slice (the request trace of the
first, successful, attempt of the surrounding `executeWithRetry`).  The
vector length is never compared against the collection's configured
dimension.  `timestamp` stands for `new Date().toISOString()`. -/
def storeDocumentsBatch (collectionName timestamp : List Char)
    (documents : List VectorDocument) :
    List QdrantRequest × Except (List Char) Unit :=
  if documents.length = 0 then ([], .ok ())
  else
    let invalidDocs := documents.filter fun d => d.embedding = none
    if 0 < invalidDocs.length then
      ([], .error ((Nat.repr invalidDocs.length).data ++
        " documents missing embeddings".data))
    else
      ((subBatches100 documents).map fun batch =>
        .upsert collectionName (batch.map fun d =>
          ⟨d.id, d.embedding.getD [], .doc d.content timestamp d.metadata⟩),
       .ok ())

/-- C5 (actual code behaviour): with the collection dimension configured to
1536, a point carrying a 3-dimensional vector sails through both store
paths — `storeDocument` performs no check at all and
`storeDocumentsBatch`'s only pre-check is the presence of an embedding —
so the upsert network call carrying the wrong-length vector is issued and
the operation reports success, instead of failing before any network call
as the claim requires. -/
theorem store_wrong_dimension_reaches_network :
    storeDocument "faq_documents".data "d1".data [1, 2, 3] "meta".data =
      ([.upsert "faq_documents".data
          [⟨"d1".data, [1, 2, 3], .raw "meta".data⟩]], .ok ()) ∧
    storeDocumentsBatch "faq_documents".data "2025-01-01T00:00:00.000Z".data
        [⟨"d1".data, "content".data, none, some [1, 2, 3]⟩] =
      ([.upsert "faq_documents".data
          [⟨"d1".data, [1, 2, 3],
            .doc "content".data "2025-01-01T00:00:00.000Z".data none⟩]],
        .ok ()) ∧
    ([1, 2, 3] : List ℚ).length ≠ 1536 := by
  refine ⟨rfl, ?_, by decide⟩
  simp [storeDocumentsBatch, subBatches100]

end RagSpec.VectorService

namespace RagSpec.TextPreprocessingService

/-- `text.replace(/a/g, b)` for a single character `a`. -/
def replaceChar (a b : Char) (l : List Char) : List Char :=
  l.map fun c => if c = a then b else c

/-- `text.replace(/x|y|.../g, b)`: map every character of `set` to `b`. -/
def replaceChars (set : List Char) (b : Char) (l : List Char) : List Char :=
  l.map fun c => if set.contains c then b else c

/-- `text.replace(/ -​/g, ' ')`: without brackets this regex is
the literal three-character sequence U+2000, '-', U+200B (not a character
class), so only that exact sequence is replaced by a space. -/
def replaceSeq2000 : List Char → List Char
  | c1 :: c2 :: c3 :: rest =>
    if c1 = '\u2000' && c2 = '-' && c3 = '\u200B' then
      ' ' :: replaceSeq2000 rest
    else c1 :: replaceSeq2000 (c2 :: c3 :: rest)
  | c :: rest => c :: replaceSeq2000 rest
  | [] => []

/-- `text.replace(/ +/g, ' ')`: collapse every run of ASCII spaces to a
single space (keeping one space per run). -/
def collapseSpaces : List Char → List Char
  | [] => []
  | [c] => [c]
  | c1 :: c2 :: rest =>
    if c1 = ' ' && c2 = ' ' then collapseSpaces (c2 :: rest)
    else c1 :: collapseSpaces (c2 :: rest)

/-- `TextPreprocessingService.normalizeWhitespace`. -/
def normalizeWhitespace (l : List Char) : List Char :=
  collapseSpaces (replaceSeq2000 (replaceChar '\u00A0' ' '
    (replaceChar '\t' ' ' l)))

/-- `text.replace(/\r\n/g, '\n')`. -/
def replaceCRLF : List Char → List Char
  | '\r' :: '\n' :: rest => '\n' :: replaceCRLF rest
  | c :: rest => c :: replaceCRLF rest
  | [] => []

/-- `text.replace(/\n{3,}/g, '\n\n')`: shrink every run of three or more
newlines to exactly two (runs of one or two are untouched). -/
def collapseNewlines3 : List Char → List Char
  | c1 :: c2 :: c3 :: rest =>
    if c1 = '\n' && c2 = '\n' && c3 = '\n' then
      collapseNewlines3 (c2 :: c3 :: rest)
    else c1 :: collapseNewlines3 (c2 :: c3 :: rest)
  | l => l

/-- `TextPreprocessingService.normalizeLineBreaks`. -/
def normalizeLineBreaks (l : List Char) : List Char :=
  collapseNewlines3 (replaceChar '\r' '\n' (replaceCRLF l))

/-- The zero-width characters removed by
`text.replace(/[​-‍﻿]/g, '')`. -/
def isZeroWidth (c : Char) : Bool :=
  c = '\u200B' || c = '\u200C' || c = '\u200D' || c = '\uFEFF'

/-- `text.replace(/[​-‍﻿]/g, '')`. -/
def stripZeroWidth (l : List Char) : List Char :=
  l.filter fun c => !(isZeroWidth c)

/-- `text.replace(/[^\x00-\x7F\u0080-￿]/g, '')`: the negated class
covers every UTF-16 code unit, so no code unit matches and the replace
removes nothing; the filter below keeps every scalar value. -/
def keepUtf16Representable (l : List Char) : List Char :=
  l.filter fun c => decide (c.val.toNat ≤ 0x10FFFF)

/-- `text.replace(/…/g, '...')`: the horizontal ellipsis becomes three
dots (one character becomes three). -/
def replaceEllipsis (l : List Char) : List Char :=
  l.flatMap fun c => if c = '\u2026' then "...".data else [c]

/-- `TextPreprocessingService.cleanSpecialCharacters`. -/
def cleanSpecialCharacters (l : List Char) : List Char :=
  replaceEllipsis (replaceChars ['\u2013', '\u2014'] '-'
    (replaceChars ['\u2018', '\u2019'] '\''
      (replaceChars ['\u201C', '\u201D'] '"'
        (keepUtf16Representable (stripZeroWidth l)))))

/-- `TextPreprocessingService.normalizeQuotes` (the character classes are
the same smart quotes already mapped by `cleanSpecialCharacters`). -/
def normalizeQuotes (l : List Char) : List Char :=
  replaceChars ['\u2018', '\u2019'] '\''
    (replaceChars ['\u201C', '\u201D'] '"' l)

/-- `text.split('\n')`, keeping empty segments. -/
def splitLines : List Char → List (List Char)
  | [] => [[]]
  | '\n' :: rest => [] :: splitLines rest
  | c :: rest =>
    match splitLines rest with
    | [] => [[c]]
    | s :: ss => (c :: s) :: ss

/-- `lines.join('\n')`. -/
def joinLines : List (List Char) → List Char
  | [] => []
  | [s] => s
  | s :: rest => s ++ '\n' :: joinLines rest

/-- `TextPreprocessingService.removeEmptyLines`: split into lines, trim
each, drop the empty ones, rejoin, trim overall. -/
def removeEmptyLines (l : List Char) : List Char :=
  jsTrim (joinLines (((splitLines l).map jsTrim).filter fun s => 0 < s.length))

/-- `TextPreprocessingService.preprocess`: the five normalization steps in
source order. -/
def preprocess (l : List Char) : List Char :=
  removeEmptyLines (normalizeQuotes (cleanSpecialCharacters
    (normalizeLineBreaks (normalizeWhitespace l))))

end RagSpec.TextPreprocessingService

namespace RagSpec.TextPreprocessingService

/-- C8 counterexample: `preprocess` is not idempotent.  In
`"a ​ b"` the two single spaces around the zero-width space survive
`normalizeWhitespace` (whose space-collapsing runs first), then
`cleanSpecialCharacters` deletes the zero-width space, leaving the double
space `"a  b"`; a second application collapses it to `"a b"`. -/
theorem preprocess_not_idempotent_counterexample :
    preprocess (preprocess ['a', ' ', '​', ' ', 'b']) ≠
      preprocess ['a', ' ', '​', ' ', 'b'] := by
  decide

theorem prep_map_id {f : Char → Char} :
    ∀ l : List Char, (∀ c ∈ l, f c = c) → l.map f = l := by
  intro l h
  induction l with
  | nil => rfl
  | cons c rest ih =>
    rw [List.map_cons, h c (by simp), ih (fun x hx => h x (by simp [hx]))]

/-- No two adjacent occurrences of the character `x`. -/
def NoTwo (x : Char) (l : List Char) : Prop :=
  List.Chain' (fun a b => ¬ (a = x ∧ b = x)) l

theorem noTwo_nil (x : Char) : NoTwo x [] := List.chain'_nil

theorem noTwo_tail {x a : Char} {l : List Char} (h : NoTwo x (a :: l)) :
    NoTwo x l := h.tail

theorem noTwo_of_not_mem {x : Char} : ∀ {l : List Char}, x ∉ l → NoTwo x l := by
  intro l
  induction l with
  | nil => intro _; exact List.chain'_nil
  | cons c rest ih =>
    intro h
    refine List.chain'_cons'.mpr ⟨?_, ih (fun hc => h (List.mem_cons_of_mem _ hc))⟩
    intro b _ hab
    exact h (hab.1 ▸ List.mem_cons_self c rest)

theorem noTwo_reverse {x : Char} {l : List Char} (h : NoTwo x l) :
    NoTwo x l.reverse := by
  rw [NoTwo, List.chain'_reverse]
  exact h.imp fun a b hab h2 => hab ⟨h2.2, h2.1⟩

theorem noTwo_suffix {x : Char} {l l' : List Char} (h : NoTwo x l)
    (hs : l' <:+ l) : NoTwo x l' := by
  obtain ⟨t, ht⟩ := hs
  rw [← ht] at h
  exact h.right_of_append

theorem noTwo_jsTrim {x : Char} {l : List Char} (h : NoTwo x l) :
    NoTwo x (jsTrim l) := by
  unfold jsTrim
  exact noTwo_reverse (noTwo_suffix (noTwo_reverse
    (noTwo_suffix h (List.dropWhile_suffix _))) (List.dropWhile_suffix _))

theorem head?_dropWhile_not {p : Char → Bool} {c : Char} :
    ∀ {l : List Char}, (l.dropWhile p).head? = some c → p c = false := by
  intro l
  induction l with
  | nil => intro h; simp [List.dropWhile] at h
  | cons a rest ih =>
    intro h
    rw [List.dropWhile_cons] at h
    split at h
    · exact ih h
    · next hp =>
      simp at h
      subst h
      simpa using hp

theorem mem_dropWhile_sub {p : Char → Bool} {c : Char} {l : List Char}
    (h : c ∈ l.dropWhile p) : c ∈ l :=
  (List.dropWhile_suffix p).subset h

theorem mem_jsTrim_sub {c : Char} {l : List Char} (h : c ∈ jsTrim l) :
    c ∈ l := by
  unfold jsTrim at h
  rw [List.mem_reverse] at h
  have h2 := mem_dropWhile_sub h
  rw [List.mem_reverse] at h2
  exact mem_dropWhile_sub h2

theorem dropWhile_eq_self_of_head {p : Char → Bool} {l : List Char}
    (h : ∀ c ∈ l.head?, p c = false) : l.dropWhile p = l := by
  cases l with
  | nil => rfl
  | cons c rest =>
    rw [List.dropWhile_cons, if_neg (by simp [h c rfl])]

theorem jsTrim_eq_self_of_ends {l : List Char}
    (h1 : ∀ c ∈ l.head?, isJsWs c = false)
    (h2 : ∀ c ∈ l.getLast?, isJsWs c = false) : jsTrim l = l := by
  unfold jsTrim
  rw [dropWhile_eq_self_of_head h1]
  rw [dropWhile_eq_self_of_head (by simpa [List.head?_reverse] using h2)]
  exact List.reverse_reverse l

theorem jsTrim_head_not_ws {l : List Char} {c : Char}
    (h : (jsTrim l).head? = some c) : isJsWs c = false := by
  unfold jsTrim at h
  rw [List.head?_reverse] at h
  rcases hX : (l.dropWhile isJsWs).reverse.dropWhile isJsWs with _ | ⟨a, X⟩
  · rw [hX] at h; simp at h
  · have hlast : (l.dropWhile isJsWs).reverse.getLast? =
        ((l.dropWhile isJsWs).reverse.dropWhile isJsWs).getLast? := by
      obtain ⟨t, ht⟩ := List.dropWhile_suffix (l := (l.dropWhile isJsWs).reverse) isJsWs
      conv_lhs => rw [← ht]
      exact List.getLast?_append_of_ne_nil t (by rw [hX]; simp)
    rw [← hlast, List.getLast?_reverse] at h
    exact head?_dropWhile_not h

theorem jsTrim_last_not_ws {l : List Char} {c : Char}
    (h : (jsTrim l).getLast? = some c) : isJsWs c = false := by
  unfold jsTrim at h
  rw [List.getLast?_reverse] at h
  exact head?_dropWhile_not h

theorem jsTrim_idem (l : List Char) : jsTrim (jsTrim l) = jsTrim l :=
  jsTrim_eq_self_of_ends
    (fun c hc => jsTrim_head_not_ws hc)
    (fun c hc => jsTrim_last_not_ws hc)

end RagSpec.TextPreprocessingService

namespace RagSpec.TextPreprocessingService

theorem mem_replaceChar {a b c : Char} {l : List Char}
    (h : c ∈ replaceChar a b l) : c ∈ l ∨ c = b := by
  unfold replaceChar at h
  obtain ⟨d, hd, hdc⟩ := List.mem_map.mp h
  by_cases hda : d = a
  · rw [hda, if_pos rfl] at hdc
    right; exact hdc.symm
  · rw [if_neg hda] at hdc
    left; exact hdc ▸ hd

theorem not_mem_replaceChar {a b : Char} (hab : a ≠ b) (l : List Char) :
    a ∉ replaceChar a b l := by
  intro h
  unfold replaceChar at h
  obtain ⟨d, _, hdc⟩ := List.mem_map.mp h
  by_cases hda : d = a
  · rw [hda, if_pos rfl] at hdc
    exact hab hdc.symm
  · rw [if_neg hda] at hdc
    exact hda hdc

theorem replaceChar_eq_self {a b : Char} {l : List Char} (h : a ∉ l) :
    replaceChar a b l = l :=
  prep_map_id l fun c hc => by
    have hca : ¬ c = a := fun hca => h (hca ▸ hc)
    rw [if_neg hca]

theorem mem_replaceChars {set : List Char} {b c : Char} {l : List Char}
    (h : c ∈ replaceChars set b l) : c ∈ l ∨ c = b := by
  unfold replaceChars at h
  obtain ⟨d, hd, hdc⟩ := List.mem_map.mp h
  by_cases hds : set.contains d = true
  · rw [if_pos hds] at hdc
    right; exact hdc.symm
  · rw [if_neg hds] at hdc
    left; exact hdc ▸ hd

theorem not_mem_replaceChars {set : List Char} {a b : Char}
    (ha : set.contains a = true) (hab : a ≠ b) (l : List Char) :
    a ∉ replaceChars set b l := by
  intro h
  unfold replaceChars at h
  obtain ⟨d, _, hdc⟩ := List.mem_map.mp h
  by_cases hds : set.contains d = true
  · rw [if_pos hds] at hdc
    exact hab hdc.symm
  · rw [if_neg hds] at hdc
    subst hdc
    exact hds ha

theorem replaceChars_eq_self {set : List Char} {b : Char} {l : List Char}
    (h : ∀ c ∈ l, set.contains c = false) : replaceChars set b l = l :=
  prep_map_id l fun c hc => by rw [h c hc]; simp

theorem mem_replaceSeq2000 {c : Char} :
    ∀ {l : List Char}, c ∈ replaceSeq2000 l → c ∈ l ∨ c = ' ' := by
  intro l
  induction l using replaceSeq2000.induct with
  | case1 c1 c2 c3 rest hcond ih =>
    intro h
    rw [replaceSeq2000, if_pos hcond] at h
    rcases List.mem_cons.mp h with h | h
    · right; exact h
    · rcases ih h with h | h
      · left; simp [h]
      · right; exact h
  | case2 c1 c2 c3 rest hcond ih =>
    intro h
    rw [replaceSeq2000, if_neg hcond] at h
    rcases List.mem_cons.mp h with h | h
    · left; simp [h]
    · rcases ih h with h | h
      · left; exact List.mem_cons_of_mem _ h
      · right; exact h
  | case3 c1 rest hshape ih =>
    intro h
    rw [replaceSeq2000] at h
    case x_1 => exact hshape
    rcases List.mem_cons.mp h with h | h
    · left; simp [h]
    · rcases ih h with h | h
      · left; exact List.mem_cons_of_mem _ h
      · right; exact h
  | case4 =>
    intro h
    simp [replaceSeq2000] at h

theorem replaceSeq2000_eq_self :
    ∀ {l : List Char}, '\u200B' ∉ l → replaceSeq2000 l = l := by
  intro l
  induction l using replaceSeq2000.induct with
  | case1 c1 c2 c3 rest hcond ih =>
    intro h
    exfalso
    apply h
    obtain ⟨h12, h3⟩ := Bool.and_eq_true_iff.mp hcond
    have h3' : c3 = '\u200B' := by simpa using h3
    simp [h3']
  | case2 c1 c2 c3 rest hcond ih =>
    intro h
    rw [replaceSeq2000, if_neg hcond,
      ih (fun hm => h (List.mem_cons_of_mem _ hm))]
  | case3 c1 rest hshape ih =>
    intro h
    rw [replaceSeq2000, ih (fun hm => h (List.mem_cons_of_mem _ hm))]
    case x_1 => exact hshape
  | case4 => intro _; rfl

end RagSpec.TextPreprocessingService

namespace RagSpec.TextPreprocessingService

theorem mem_collapseSpaces {c : Char} :
    ∀ {l : List Char}, c ∈ collapseSpaces l → c ∈ l := by
  intro l
  induction l using collapseSpaces.induct with
  | case1 => intro h; simpa [collapseSpaces] using h
  | case2 d => intro h; simpa [collapseSpaces] using h
  | case3 c1 c2 rest hcond ih =>
    intro h
    rw [collapseSpaces, if_pos hcond] at h
    exact List.mem_cons_of_mem _ (ih h)
  | case4 c1 c2 rest hcond ih =>
    intro h
    rw [collapseSpaces, if_neg hcond] at h
    rcases List.mem_cons.mp h with h | h
    · simp [h]
    · exact List.mem_cons_of_mem _ (ih h)

theorem collapseSpaces_head :
    ∀ (c : Char) (rest : List Char),
      (collapseSpaces (c :: rest)).head? = some c := by
  intro c rest
  induction rest generalizing c with
  | nil => rfl
  | cons c2 rest2 ih =>
    by_cases hcond : (c = ' ' && c2 = ' ') = true
    · rw [collapseSpaces, if_pos hcond]
      obtain ⟨h1, h2⟩ := Bool.and_eq_true_iff.mp hcond
      simp only [decide_eq_true_eq] at h1 h2
      rw [ih c2, h1, h2]
    · rw [collapseSpaces, if_neg hcond]
      rfl

theorem collapseSpaces_noTwo : ∀ l : List Char, NoTwo ' ' (collapseSpaces l) := by
  intro l
  induction l using collapseSpaces.induct with
  | case1 => exact List.chain'_nil
  | case2 d => exact List.chain'_singleton d
  | case3 c1 c2 rest hcond ih =>
    rw [collapseSpaces, if_pos hcond]
    exact ih
  | case4 c1 c2 rest hcond ih =>
    rw [collapseSpaces, if_neg hcond]
    refine List.chain'_cons'.mpr ⟨?_, ih⟩
    intro h hh hcon
    rw [collapseSpaces_head c2 rest] at hh
    have hc2 : c2 = h := by simpa using hh
    apply hcond
    simp [hcon.1, hc2, hcon.2]

theorem collapseSpaces_eq_self :
    ∀ {l : List Char}, NoTwo ' ' l → collapseSpaces l = l := by
  intro l
  induction l using collapseSpaces.induct with
  | case1 => intro _; rfl
  | case2 d => intro _; rfl
  | case3 c1 c2 rest hcond ih =>
    intro h
    exfalso
    obtain ⟨h1, h2⟩ := Bool.and_eq_true_iff.mp hcond
    simp only [decide_eq_true_eq] at h1 h2
    exact (List.chain'_cons.mp h).1 ⟨h1, h2⟩
  | case4 c1 c2 rest hcond ih =>
    intro h
    rw [collapseSpaces, if_neg hcond, ih (List.chain'_cons.mp h).2]

theorem mem_replaceCRLF {c : Char} :
    ∀ {l : List Char}, c ∈ replaceCRLF l → c ∈ l := by
  intro l
  induction l using replaceCRLF.induct with
  | case1 rest ih =>
    intro h
    rw [replaceCRLF] at h
    rcases List.mem_cons.mp h with h | h
    · simp [h]
    · simp [ih h]
  | case2 c1 rest hshape ih =>
    intro h
    rw [replaceCRLF] at h
    case x_1 => exact hshape
    rcases List.mem_cons.mp h with h | h
    · simp [h]
    · simp [ih h]
  | case3 => intro h; simp [replaceCRLF] at h

theorem replaceCRLF_eq_self :
    ∀ {l : List Char}, '\r' ∉ l → replaceCRLF l = l := by
  intro l
  induction l using replaceCRLF.induct with
  | case1 rest ih =>
    intro h
    exfalso
    exact h (by simp)
  | case2 c1 rest hshape ih =>
    intro h
    rw [replaceCRLF, ih (fun hm => h (List.mem_cons_of_mem _ hm))]
    case x_1 => exact hshape
  | case3 => intro _; rfl

theorem head?_replaceCRLF :
    ∀ l : List Char, (replaceCRLF l).head? = l.head? ∨
      (replaceCRLF l).head? = some '\n' := by
  intro l
  induction l using replaceCRLF.induct with
  | case1 rest ih => right; rfl
  | case2 c1 rest hshape ih =>
    left
    rw [replaceCRLF]
    case x_1 => exact hshape
    rfl
  | case3 => left; rfl

theorem noTwo_space_replaceCRLF :
    ∀ {l : List Char}, NoTwo ' ' l → NoTwo ' ' (replaceCRLF l) := by
  intro l
  induction l using replaceCRLF.induct with
  | case1 rest ih =>
    intro h
    rw [replaceCRLF]
    refine List.chain'_cons'.mpr ⟨?_, ih (noTwo_tail (noTwo_tail h))⟩
    intro b _ hcon
    exact absurd hcon.1 (by decide)
  | case2 c1 rest hshape ih =>
    intro h
    rw [replaceCRLF]
    case x_1 => exact hshape
    refine List.chain'_cons'.mpr ⟨?_, ih (noTwo_tail h)⟩
    intro b hb hcon
    rcases head?_replaceCRLF rest with hc | hc
    · rw [hc] at hb
      exact (List.chain'_cons'.mp h).1 b hb hcon
    · rw [hc] at hb
      have hb2 : '\n' = b := by simpa using hb
      rw [← hb2] at hcon
      exact absurd hcon.2 (by decide)
  | case3 => intro _; exact List.chain'_nil

end RagSpec.TextPreprocessingService

namespace RagSpec.TextPreprocessingService

theorem head?_collapseNewlines3 :
    ∀ l : List Char, (collapseNewlines3 l).head? = l.head? := by
  intro l
  induction l using collapseNewlines3.induct with
  | case1 c1 c2 c3 rest hcond ih =>
    rw [collapseNewlines3, if_pos hcond, ih]
    obtain ⟨h12, h3⟩ := Bool.and_eq_true_iff.mp hcond
    obtain ⟨h1, h2⟩ := Bool.and_eq_true_iff.mp h12
    simp only [decide_eq_true_eq] at h1 h2
    rw [List.head?_cons, List.head?_cons, h1, h2]
  | case2 c1 c2 c3 rest hcond ih =>
    rw [collapseNewlines3, if_neg hcond]
    rfl
  | case3 l hshape =>
    rw [collapseNewlines3]
    case x_1 => exact hshape

theorem mem_collapseNewlines3 {c : Char} :
    ∀ {l : List Char}, c ∈ collapseNewlines3 l → c ∈ l := by
  intro l
  induction l using collapseNewlines3.induct with
  | case1 c1 c2 c3 rest hcond ih =>
    intro h
    rw [collapseNewlines3, if_pos hcond] at h
    exact List.mem_cons_of_mem _ (ih h)
  | case2 c1 c2 c3 rest hcond ih =>
    intro h
    rw [collapseNewlines3, if_neg hcond] at h
    rcases List.mem_cons.mp h with h | h
    · simp [h]
    · exact List.mem_cons_of_mem _ (ih h)
  | case3 l hshape =>
    intro h
    rw [collapseNewlines3] at h
    case x_1 => exact hshape
    exact h

theorem noTwo_collapseNewlines3 {x : Char} :
    ∀ {l : List Char}, NoTwo x l → NoTwo x (collapseNewlines3 l) := by
  intro l
  induction l using collapseNewlines3.induct with
  | case1 c1 c2 c3 rest hcond ih =>
    intro h
    rw [collapseNewlines3, if_pos hcond]
    exact ih (noTwo_tail h)
  | case2 c1 c2 c3 rest hcond ih =>
    intro h
    rw [collapseNewlines3, if_neg hcond]
    refine List.chain'_cons'.mpr ⟨?_, ih (noTwo_tail h)⟩
    intro b hb hcon
    rw [head?_collapseNewlines3, List.head?_cons] at hb
    have hb2 : c2 = b := by simpa using hb
    exact (List.chain'_cons.mp h).1 ⟨hcon.1, hb2 ▸ hcon.2⟩
  | case3 l hshape =>
    intro h
    rw [collapseNewlines3]
    case x_1 => exact hshape
    exact h

theorem collapseNewlines3_eq_self :
    ∀ {l : List Char}, NoTwo '\n' l → collapseNewlines3 l = l := by
  intro l
  induction l using collapseNewlines3.induct with
  | case1 c1 c2 c3 rest hcond ih =>
    intro h
    exfalso
    obtain ⟨h12, h3⟩ := Bool.and_eq_true_iff.mp hcond
    obtain ⟨h1, h2⟩ := Bool.and_eq_true_iff.mp h12
    simp only [decide_eq_true_eq] at h1 h2
    exact (List.chain'_cons.mp h).1 ⟨h1, h2⟩
  | case2 c1 c2 c3 rest hcond ih =>
    intro h
    rw [collapseNewlines3, if_neg hcond, ih (noTwo_tail h)]
  | case3 l hshape =>
    intro h
    rw [collapseNewlines3]
    case x_1 => exact hshape

end RagSpec.TextPreprocessingService

namespace RagSpec.TextPreprocessingService

theorem mem_stripZeroWidth {c : Char} {l : List Char}
    (h : c ∈ stripZeroWidth l) : c ∈ l :=
  List.mem_of_mem_filter h

theorem not_mem_stripZeroWidth {c : Char} (hc : isZeroWidth c = true)
    (l : List Char) : c ∉ stripZeroWidth l := by
  intro h
  have := List.of_mem_filter h
  simp [hc] at this

theorem stripZeroWidth_eq_self {l : List Char}
    (h : ∀ c ∈ l, isZeroWidth c = false) : stripZeroWidth l = l :=
  List.filter_eq_self.mpr fun c hc => by simp [h c hc]

theorem keepUtf16Representable_eq_self (l : List Char) :
    keepUtf16Representable l = l :=
  List.filter_eq_self.mpr fun c _ => by
    have : c.val.toNat ≤ 0x10FFFF := by
      rcases c.valid with h | ⟨h1, h2⟩ <;> omega
    simpa using this

theorem mem_replaceEllipsis {c : Char} :
    ∀ {l : List Char}, c ∈ replaceEllipsis l → c ∈ l ∨ c = '.' := by
  intro l
  induction l with
  | nil => intro h; simp [replaceEllipsis] at h
  | cons d rest ih =>
    intro h
    rw [replaceEllipsis, List.flatMap_cons] at h
    rcases List.mem_append.mp h with h | h
    · by_cases hd : d = '…'
      · rw [if_pos hd] at h
        right
        simp at h
        exact h
      · rw [if_neg hd] at h
        left
        have : c = d := by simpa using h
        simp [this]
    · rcases ih h with h | h
      · left; exact List.mem_cons_of_mem _ h
      · right; exact h

theorem not_mem_replaceEllipsis (l : List Char) : '…' ∉ replaceEllipsis l := by
  induction l with
  | nil => simp [replaceEllipsis]
  | cons d rest ih =>
    intro h
    rw [replaceEllipsis, List.flatMap_cons] at h
    rcases List.mem_append.mp h with h | h
    · by_cases hd : d = '…'
      · rw [if_pos hd] at h
        simp at h
      · rw [if_neg hd] at h
        have : ('…' : Char) = d := by simpa using h
        exact hd this.symm
    · exact ih h

theorem replaceEllipsis_eq_self :
    ∀ {l : List Char}, '…' ∉ l → replaceEllipsis l = l := by
  intro l
  induction l with
  | nil => intro _; rfl
  | cons d rest ih =>
    intro h
    have hd : ¬ d = '…' := fun hd => h (by simp [hd])
    rw [replaceEllipsis, List.flatMap_cons, if_neg hd]
    have hrest := ih (fun hm => h (List.mem_cons_of_mem _ hm))
    rw [replaceEllipsis] at hrest
    rw [hrest]
    rfl

theorem head?_replaceEllipsis (d : Char) (rest : List Char) :
    (replaceEllipsis (d :: rest)).head? =
      some (if d = '…' then '.' else d) := by
  rw [replaceEllipsis, List.flatMap_cons]
  by_cases hd : d = '…'
  · rw [if_pos hd, if_pos hd]
    rfl
  · rw [if_neg hd, if_neg hd]
    rfl

theorem noTwo_space_replaceEllipsis :
    ∀ {l : List Char}, NoTwo ' ' l → NoTwo ' ' (replaceEllipsis l) := by
  intro l
  induction l with
  | nil => intro _; exact List.chain'_nil
  | cons d rest ih =>
    intro h
    rw [replaceEllipsis, List.flatMap_cons]
    have htail : NoTwo ' ' (replaceEllipsis rest) := by
      have := ih (noTwo_tail h)
      rwa [replaceEllipsis] at this
    by_cases hd : d = '…'
    · rw [if_pos hd]
      refine List.chain'_cons.mpr ⟨by decide, ?_⟩
      refine List.chain'_cons.mpr ⟨by decide, ?_⟩
      refine List.chain'_cons'.mpr ⟨?_, htail⟩
      intro b _ hcon
      exact absurd hcon.1 (by decide)
    · rw [if_neg hd]
      refine List.chain'_cons'.mpr ⟨?_, htail⟩
      intro b hb hcon
      cases rest with
      | nil => simp [replaceEllipsis] at hb
      | cons e rest2 =>
        have hb2 : b ∈ (replaceEllipsis (e :: rest2)).head? := hb
        rw [head?_replaceEllipsis] at hb2
        have hbe : (if e = '…' then '.' else e) = b := by simpa using hb2
        by_cases he : e = '…'
        · rw [if_pos he] at hbe
          rw [← hbe] at hcon
          exact absurd hcon.2 (by decide)
        · rw [if_neg he] at hbe
          exact (List.chain'_cons.mp h).1 ⟨hcon.1, hbe ▸ hcon.2⟩

end RagSpec.TextPreprocessingService

namespace RagSpec.TextPreprocessingService

theorem head?_mem {α : Type} {c : α} {l : List α} (h : l.head? = some c) :
    c ∈ l := by
  cases l with
  | nil => simp at h
  | cons d rest =>
    simp at h
    simp [h]

theorem getLast?_mem {α : Type} {c : α} {l : List α} (h : l.getLast? = some c) :
    c ∈ l := by
  rw [← List.head?_reverse] at h
  rw [← List.mem_reverse]
  exact head?_mem h

theorem splitLines_ne_nil : ∀ l : List Char, splitLines l ≠ [] := by
  intro l
  induction l using splitLines.induct with
  | case1 => simp [splitLines]
  | case2 rest ih => simp [splitLines]
  | case3 c rest hc hmatch =>
    rw [splitLines]
    case x_1 => exact hc
    rw [hmatch]
    simp
  | case4 c rest hc s ss hmatch =>
    rw [splitLines]
    case x_1 => exact hc
    rw [hmatch]
    simp

theorem splitLines_no_newline :
    ∀ {l : List Char} {s : List Char}, s ∈ splitLines l → '\n' ∉ s := by
  intro l
  induction l using splitLines.induct with
  | case1 =>
    intro s hs
    simp [splitLines] at hs
    simp [hs]
  | case2 rest ih =>
    intro s hs
    rw [splitLines] at hs
    rcases List.mem_cons.mp hs with h | h
    · simp [h]
    · exact ih h
  | case3 c rest hc heq ih =>
    exact absurd heq (splitLines_ne_nil rest)
  | case4 c rest hc s0 ss heq ih =>
    intro s hs
    rw [splitLines] at hs
    case x_1 => exact hc
    rw [heq] at hs
    rcases List.mem_cons.mp hs with h | h
    · subst h
      intro hmem
      rcases List.mem_cons.mp hmem with h | h
      · exact hc h.symm
      · exact ih (by rw [heq]; exact List.mem_cons_self _ _) h
    · exact ih (by rw [heq]; exact List.mem_cons_of_mem _ h)

theorem mem_of_splitLines {c : Char} :
    ∀ {l : List Char} {s : List Char}, s ∈ splitLines l → c ∈ s → c ∈ l := by
  intro l
  induction l using splitLines.induct with
  | case1 =>
    intro s hs hc
    simp [splitLines] at hs
    subst hs
    simp at hc
  | case2 rest ih =>
    intro s hs hc
    rw [splitLines] at hs
    rcases List.mem_cons.mp hs with h | h
    · subst h; simp at hc
    · exact List.mem_cons_of_mem _ (ih h hc)
  | case3 c1 rest hc1 heq ih =>
    exact absurd heq (splitLines_ne_nil rest)
  | case4 c1 rest hc1 s0 ss heq ih =>
    intro s hs hc
    rw [splitLines] at hs
    case x_1 => exact hc1
    rw [heq] at hs
    rcases List.mem_cons.mp hs with h | h
    · subst h
      rcases List.mem_cons.mp hc with h | h
      · simp [h]
      · exact List.mem_cons_of_mem _
          (ih (by rw [heq]; exact List.mem_cons_self _ _) h)
    · exact List.mem_cons_of_mem _
        (ih (by rw [heq]; exact List.mem_cons_of_mem _ h) hc)

theorem joinLines_splitLines : ∀ l : List Char, joinLines (splitLines l) = l := by
  intro l
  induction l using splitLines.induct with
  | case1 => rfl
  | case2 rest ih =>
    rw [splitLines]
    obtain ⟨s0, ss, hss⟩ : ∃ s0 ss, splitLines rest = s0 :: ss := by
      cases h : splitLines rest with
      | nil => exact absurd h (splitLines_ne_nil rest)
      | cons s0 ss => exact ⟨s0, ss, rfl⟩
    rw [hss]
    show [] ++ '\n' :: joinLines (s0 :: ss) = '\n' :: rest
    rw [List.nil_append, ← hss, ih]
  | case3 c rest hc heq ih =>
    exact absurd heq (splitLines_ne_nil rest)
  | case4 c rest hc s0 ss heq ih =>
    rw [splitLines]
    case x_1 => exact hc
    rw [heq]
    rw [heq] at ih
    cases ss with
    | nil =>
      show c :: s0 = c :: rest
      rw [show joinLines [s0] = s0 from rfl] at ih
      rw [ih]
    | cons s1 ss1 =>
      show (c :: s0) ++ '\n' :: joinLines (s1 :: ss1) = c :: rest
      rw [List.cons_append]
      rw [show s0 ++ '\n' :: joinLines (s1 :: ss1) = joinLines (s0 :: s1 :: ss1) from rfl]
      rw [ih]

end RagSpec.TextPreprocessingService

namespace RagSpec.TextPreprocessingService

theorem splitLines_cons_ne (c : Char) (rest : List Char) (hc : ¬ c = '\n') :
    splitLines (c :: rest) =
      match splitLines rest with
      | [] => [[c]]
      | s :: ss => (c :: s) :: ss := by
  rw [splitLines]
  case x_1 => exact hc

theorem splitLines_of_no_newline :
    ∀ {s : List Char}, '\n' ∉ s → splitLines s = [s] := by
  intro s
  induction s with
  | nil => intro _; rfl
  | cons c rest ih =>
    intro h
    have hc : ¬ c = '\n' := fun hc => h (by simp [hc])
    rw [splitLines_cons_ne c rest hc, ih (fun hm => h (List.mem_cons_of_mem _ hm))]

theorem splitLines_append_newline :
    ∀ {s : List Char}, '\n' ∉ s → ∀ t : List Char,
      splitLines (s ++ '\n' :: t) = s :: splitLines t := by
  intro s
  induction s with
  | nil =>
    intro _ t
    rw [List.nil_append, splitLines]
  | cons c rest ih =>
    intro h t
    have hc : ¬ c = '\n' := fun hc => h (by simp [hc])
    rw [List.cons_append, splitLines_cons_ne c _ hc,
      ih (fun hm => h (List.mem_cons_of_mem _ hm)) t]

theorem splitLines_joinLines :
    ∀ {L : List (List Char)}, (∀ s ∈ L, '\n' ∉ s) → L ≠ [] →
      splitLines (joinLines L) = L := by
  intro L
  induction L with
  | nil => intro _ h; exact absurd rfl h
  | cons s L' ih =>
    intro h _
    cases L' with
    | nil =>
      rw [show joinLines [s] = s from rfl]
      exact splitLines_of_no_newline (h s (by simp))
    | cons s1 L2 =>
      rw [show joinLines (s :: s1 :: L2) = s ++ '\n' :: joinLines (s1 :: L2)
        from rfl]
      rw [splitLines_append_newline (h s (by simp)) _]
      rw [ih (fun x hx => h x (List.mem_cons_of_mem _ hx)) (by simp)]

theorem head?_splitLines :
    ∀ l : List Char, ∃ s0 ss, splitLines l = s0 :: ss ∧
      (s0.head? = none ∨ s0.head? = l.head?) := by
  intro l
  cases l with
  | nil => exact ⟨[], [], rfl, Or.inl rfl⟩
  | cons c rest =>
    by_cases hc : c = '\n'
    · subst hc
      exact ⟨[], splitLines rest, by rw [splitLines], Or.inl rfl⟩
    · obtain ⟨s0, ss, hss⟩ : ∃ s0 ss, splitLines rest = s0 :: ss := by
        cases h : splitLines rest with
        | nil => exact absurd h (splitLines_ne_nil rest)
        | cons s0 ss => exact ⟨s0, ss, rfl⟩
      refine ⟨c :: s0, ss, ?_, Or.inr rfl⟩
      rw [splitLines_cons_ne c rest hc, hss]

theorem noTwo_of_mem_splitLines {x : Char} :
    ∀ {l : List Char} {s : List Char}, NoTwo x l → s ∈ splitLines l →
      NoTwo x s := by
  intro l
  induction l using splitLines.induct with
  | case1 =>
    intro s _ hs
    simp [splitLines] at hs
    subst hs
    exact List.chain'_nil
  | case2 rest ih =>
    intro s h hs
    rw [splitLines] at hs
    rcases List.mem_cons.mp hs with hh | hh
    · subst hh; exact List.chain'_nil
    · exact ih (noTwo_tail h) hh
  | case3 c rest hc heq ih =>
    exact absurd heq (splitLines_ne_nil rest)
  | case4 c rest hc s0 ss heq ih =>
    intro s h hs
    rw [splitLines_cons_ne c rest hc, heq] at hs
    rcases List.mem_cons.mp hs with hh | hh
    · subst hh
      refine List.chain'_cons'.mpr ⟨?_, ?_⟩
      · intro b hb hcon
        obtain ⟨t0, ts, hts, hhead⟩ := head?_splitLines rest
        have ht0 : t0 = s0 := by
          rw [heq] at hts
          exact (List.cons_eq_cons.mp hts).1.symm
        subst ht0
        rcases hhead with hh0 | hh0
        · rw [hh0] at hb
          simp at hb
        · rw [hh0] at hb
          exact (List.chain'_cons'.mp h).1 b hb hcon
      · exact ih (noTwo_tail h) (by rw [heq]; exact List.mem_cons_self _ _)
    · exact ih (noTwo_tail h) (by rw [heq]; exact List.mem_cons_of_mem _ hh)

end RagSpec.TextPreprocessingService

namespace RagSpec.TextPreprocessingService

theorem head?_joinLines (s : List Char) (L : List (List Char)) (hs : s ≠ []) :
    (joinLines (s :: L)).head? = s.head? := by
  cases L with
  | nil => rfl
  | cons s1 L2 =>
    rw [show joinLines (s :: s1 :: L2) = s ++ '\n' :: joinLines (s1 :: L2)
      from rfl]
    cases s with
    | nil => exact absurd rfl hs
    | cons c cs => rfl

theorem joinLines_ne_nil {s : List Char} {L : List (List Char)} (hs : s ≠ []) :
    joinLines (s :: L) ≠ [] := by
  cases L with
  | nil => exact hs
  | cons s1 L2 =>
    rw [show joinLines (s :: s1 :: L2) = s ++ '\n' :: joinLines (s1 :: L2)
      from rfl]
    simp

theorem getLast?_joinLines :
    ∀ {L : List (List Char)}, (∀ s ∈ L, s ≠ []) → L ≠ [] →
      ∃ s, L.getLast? = some s ∧ (joinLines L).getLast? = s.getLast? := by
  intro L
  induction L with
  | nil => intro _ h; exact absurd rfl h
  | cons s L' ih =>
    intro h _
    cases L' with
    | nil => exact ⟨s, rfl, rfl⟩
    | cons s1 L2 =>
      obtain ⟨t, ht1, ht2⟩ := ih (fun a ha => h a (List.mem_cons_of_mem _ ha))
        (by simp)
      refine ⟨t, ?_, ?_⟩
      · rw [List.getLast?_cons_cons]
        exact ht1
      · rw [show joinLines (s :: s1 :: L2) = s ++ '\n' :: joinLines (s1 :: L2)
          from rfl]
        rw [List.getLast?_append_of_ne_nil s (by simp)]
        have hjoin : joinLines (s1 :: L2) ≠ [] :=
          joinLines_ne_nil (h s1 (by simp))
        rw [show ('\n' :: joinLines (s1 :: L2)) = ['\n'] ++ joinLines (s1 :: L2)
          from rfl]
        rw [List.getLast?_append_of_ne_nil _ hjoin]
        exact ht2

theorem mem_joinLines {c : Char} :
    ∀ {L : List (List Char)}, c ∈ joinLines L →
      (∃ s ∈ L, c ∈ s) ∨ c = '\n' := by
  intro L
  induction L with
  | nil => intro h; simp [joinLines] at h
  | cons s L' ih =>
    intro h
    cases L' with
    | nil =>
      left
      exact ⟨s, by simp, h⟩
    | cons s1 L2 =>
      rw [show joinLines (s :: s1 :: L2) = s ++ '\n' :: joinLines (s1 :: L2)
        from rfl] at h
      rcases List.mem_append.mp h with h | h
      · left; exact ⟨s, by simp, h⟩
      · rcases List.mem_cons.mp h with h | h
        · right; exact h
        · rcases ih h with ⟨t, ht, hct⟩ | h
          · left; exact ⟨t, List.mem_cons_of_mem _ ht, hct⟩
          · right; exact h

theorem noTwo_joinLines {x : Char} (hx : x ≠ '\n') :
    ∀ {L : List (List Char)}, (∀ s ∈ L, NoTwo x s) →
      NoTwo x (joinLines L) := by
  intro L
  induction L with
  | nil => intro _; exact List.chain'_nil
  | cons s L' ih =>
    intro h
    cases L' with
    | nil => exact h s (by simp)
    | cons s1 L2 =>
      rw [show joinLines (s :: s1 :: L2) = s ++ '\n' :: joinLines (s1 :: L2)
        from rfl]
      refine (List.chain'_append).mpr ⟨h s (by simp), ?_, ?_⟩
      · refine List.chain'_cons'.mpr
          ⟨?_, ih (fun a ha => h a (List.mem_cons_of_mem _ ha))⟩
        intro b _ hcon
        exact hx hcon.1.symm
      · intro a _ y hy hcon
        have hy2 : '\n' = y := by simpa using hy
        exact hx (hy2.trans hcon.2).symm

theorem noTwo_newline_joinLines :
    ∀ {L : List (List Char)}, (∀ s ∈ L, '\n' ∉ s ∧ s ≠ []) →
      NoTwo '\n' (joinLines L) := by
  intro L
  induction L with
  | nil => intro _; exact List.chain'_nil
  | cons s L' ih =>
    intro h
    cases L' with
    | nil => exact noTwo_of_not_mem (h s (by simp)).1
    | cons s1 L2 =>
      rw [show joinLines (s :: s1 :: L2) = s ++ '\n' :: joinLines (s1 :: L2)
        from rfl]
      refine (List.chain'_append).mpr
        ⟨noTwo_of_not_mem (h s (by simp)).1, ?_, ?_⟩
      · refine List.chain'_cons'.mpr
          ⟨?_, ih (fun a ha => h a (List.mem_cons_of_mem _ ha))⟩
        intro b hb hcon
        rw [head?_joinLines s1 L2 (h s1 (by simp)).2] at hb
        exact (h s1 (by simp)).1 (hcon.2 ▸ head?_mem hb)
      · intro a ha y hy hcon
        have ha2 : a ∈ s := getLast?_mem ha
        exact (h s (by simp)).1 (hcon.1 ▸ ha2)

end RagSpec.TextPreprocessingService

namespace RagSpec.TextPreprocessingService

theorem map_eq_self_of {α : Type} {f : α → α} :
    ∀ l : List α, (∀ a ∈ l, f a = a) → l.map f = l := by
  intro l h
  induction l with
  | nil => rfl
  | cons a rest ih =>
    rw [List.map_cons, h a (by simp), ih (fun b hb => h b (by simp [hb]))]

theorem noTwo_map_of {x : Char} {f : Char → Char}
    (hf : ∀ c, f c = x → c = x) {l : List Char} (h : NoTwo x l) :
    NoTwo x (l.map f) := by
  rw [NoTwo, List.chain'_map]
  exact h.imp fun a b hab hcon => hab ⟨hf a hcon.1, hf b hcon.2⟩

theorem mem_normalizeWhitespace {c : Char} {l : List Char}
    (h : c ∈ normalizeWhitespace l) : c ∈ l ∨ c = ' ' := by
  unfold normalizeWhitespace at h
  have h1 := mem_collapseSpaces h
  rcases mem_replaceSeq2000 h1 with h2 | h2
  · rcases mem_replaceChar h2 with h3 | h3
    · rcases mem_replaceChar h3 with h4 | h4
      · left; exact h4
      · right; exact h4
    · right; exact h3
  · right; exact h2

theorem mem_normalizeLineBreaks {c : Char} {l : List Char}
    (h : c ∈ normalizeLineBreaks l) : c ∈ l ∨ c = '\n' := by
  unfold normalizeLineBreaks at h
  have h1 := mem_collapseNewlines3 h
  rcases mem_replaceChar h1 with h2 | h2
  · left; exact mem_replaceCRLF h2
  · right; exact h2

theorem mem_cleanSpecialCharacters {c : Char} {l : List Char}
    (h : c ∈ cleanSpecialCharacters l) :
    c ∈ l ∨ c = '"' ∨ c = '\'' ∨ c = '-' ∨ c = '.' := by
  unfold cleanSpecialCharacters at h
  rcases mem_replaceEllipsis h with h1 | h1
  · rcases mem_replaceChars h1 with h2 | h2
    · rcases mem_replaceChars h2 with h3 | h3
      · rcases mem_replaceChars h3 with h4 | h4
        · rw [keepUtf16Representable_eq_self] at h4
          left
          exact mem_stripZeroWidth h4
        · right; left; exact h4
      · right; right; left; exact h3
    · right; right; right; left; exact h2
  · right; right; right; right; exact h1

theorem mem_normalizeQuotes {c : Char} {l : List Char}
    (h : c ∈ normalizeQuotes l) : c ∈ l ∨ c = '"' ∨ c = '\'' := by
  unfold normalizeQuotes at h
  rcases mem_replaceChars h with h1 | h1
  · rcases mem_replaceChars h1 with h2 | h2
    · left; exact h2
    · right; left; exact h2
  · right; right; exact h1

theorem mem_removeEmptyLines {c : Char} {l : List Char}
    (h : c ∈ removeEmptyLines l) : c ∈ l ∨ c = '\n' := by
  unfold removeEmptyLines at h
  have h1 := mem_jsTrim_sub h
  rcases mem_joinLines h1 with ⟨s, hs, hcs⟩ | h2
  · have hs2 := List.mem_of_mem_filter hs
    obtain ⟨seg, hseg, hseq⟩ := List.mem_map.mp hs2
    left
    exact mem_of_splitLines hseg (mem_jsTrim_sub (hseq ▸ hcs))
  · right; exact h2

theorem not_mem_normalizeWhitespace_tab (l : List Char) :
    '\t' ∉ normalizeWhitespace l := by
  intro h
  unfold normalizeWhitespace at h
  have h1 := mem_collapseSpaces h
  rcases mem_replaceSeq2000 h1 with h2 | h2
  · rcases mem_replaceChar h2 with h3 | h3
    · exact not_mem_replaceChar (show ('\t' : Char) ≠ ' ' by decide) l h3
    · exact absurd h3 (by decide)
  · exact absurd h2 (by decide)

theorem not_mem_normalizeWhitespace_nbsp (l : List Char) :
    '\u00A0' ∉ normalizeWhitespace l := by
  intro h
  unfold normalizeWhitespace at h
  have h1 := mem_collapseSpaces h
  rcases mem_replaceSeq2000 h1 with h2 | h2
  · exact not_mem_replaceChar (show ('\u00A0' : Char) ≠ ' ' by decide) _ h2
  · exact absurd h2 (by decide)

theorem not_mem_normalizeLineBreaks_cr (l : List Char) :
    '\r' ∉ normalizeLineBreaks l := by
  intro h
  unfold normalizeLineBreaks at h
  have h1 := mem_collapseNewlines3 h
  exact not_mem_replaceChar (show ('\r' : Char) ≠ '\n' by decide) _ h1

theorem not_mem_cleanSpecialCharacters_zw {β : Char}
    (hβ : isZeroWidth β = true) (l : List Char) :
    β ∉ cleanSpecialCharacters l := by
  have hd4 : β = '\u200B' ∨ β = '\u200C' ∨ β = '\u200D' ∨ β = '\uFEFF' := by
    simpa [isZeroWidth, Bool.or_eq_true, decide_eq_true_eq, or_assoc] using hβ
  intro h
  unfold cleanSpecialCharacters at h
  rcases mem_replaceEllipsis h with hm | hm
  · rcases mem_replaceChars hm with hm2 | hm2
    · rcases mem_replaceChars hm2 with hm3 | hm3
      · rcases mem_replaceChars hm3 with hm4 | hm4
        · rw [keepUtf16Representable_eq_self] at hm4
          exact not_mem_stripZeroWidth hβ _ hm4
        · rcases hd4 with hb | hb | hb | hb <;> subst hb <;> exact absurd hm4 (by decide)
      · rcases hd4 with hb | hb | hb | hb <;> subst hb <;> exact absurd hm3 (by decide)
    · rcases hd4 with hb | hb | hb | hb <;> subst hb <;> exact absurd hm2 (by decide)
  · rcases hd4 with hb | hb | hb | hb <;> subst hb <;> exact absurd hm (by decide)

theorem not_mem_cleanSpecialCharacters_dquote {β : Char}
    (hβ : β = '\u201C' ∨ β = '\u201D') (l : List Char) :
    β ∉ cleanSpecialCharacters l := by
  intro h
  unfold cleanSpecialCharacters at h
  rcases mem_replaceEllipsis h with hm | hm
  · rcases mem_replaceChars hm with hm2 | hm2
    · rcases mem_replaceChars hm2 with hm3 | hm3
      · refine not_mem_replaceChars ?_ ?_ _ hm3 <;>
          rcases hβ with hb | hb <;> subst hb <;> decide
      · rcases hβ with hb | hb <;> subst hb <;> exact absurd hm3 (by decide)
    · rcases hβ with hb | hb <;> subst hb <;> exact absurd hm2 (by decide)
  · rcases hβ with hb | hb <;> subst hb <;> exact absurd hm (by decide)

theorem not_mem_cleanSpecialCharacters_apos {β : Char}
    (hβ : β = '\u2018' ∨ β = '\u2019') (l : List Char) :
    β ∉ cleanSpecialCharacters l := by
  intro h
  unfold cleanSpecialCharacters at h
  rcases mem_replaceEllipsis h with hm | hm
  · rcases mem_replaceChars hm with hm2 | hm2
    · refine not_mem_replaceChars ?_ ?_ _ hm2 <;>
        rcases hβ with hb | hb <;> subst hb <;> decide
    · rcases hβ with hb | hb <;> subst hb <;> exact absurd hm2 (by decide)
  · rcases hβ with hb | hb <;> subst hb <;> exact absurd hm (by decide)

theorem not_mem_cleanSpecialCharacters_dash {β : Char}
    (hβ : β = '\u2013' ∨ β = '\u2014') (l : List Char) :
    β ∉ cleanSpecialCharacters l := by
  intro h
  unfold cleanSpecialCharacters at h
  rcases mem_replaceEllipsis h with hm | hm
  · refine not_mem_replaceChars ?_ ?_ _ hm <;>
      rcases hβ with hb | hb <;> subst hb <;> decide
  · rcases hβ with hb | hb <;> subst hb <;> exact absurd hm (by decide)

theorem not_mem_cleanSpecialCharacters_ellipsis (l : List Char) :
    '\u2026' ∉ cleanSpecialCharacters l := by
  unfold cleanSpecialCharacters
  exact not_mem_replaceEllipsis _

end RagSpec.TextPreprocessingService

namespace RagSpec.TextPreprocessingService

/-- The shape `removeEmptyLines` guarantees of its (non-empty) output:
every `\n`-separated line is already trimmed and non-empty. -/
def LinesNormal (y : List Char) : Prop :=
  ∀ s ∈ splitLines y, jsTrim s = s ∧ s ≠ []

theorem noTwo_space_removeEmptyLines {l : List Char} (h : NoTwo ' ' l) :
    NoTwo ' ' (removeEmptyLines l) := by
  unfold removeEmptyLines
  apply noTwo_jsTrim
  apply noTwo_joinLines (by decide)
  intro s hs
  obtain ⟨seg, hseg, hseq⟩ := List.mem_map.mp (List.mem_of_mem_filter hs)
  rw [← hseq]
  exact noTwo_jsTrim (noTwo_of_mem_splitLines h hseg)

theorem noTwo_newline_removeEmptyLines (l : List Char) :
    NoTwo '\n' (removeEmptyLines l) := by
  unfold removeEmptyLines
  apply noTwo_jsTrim
  apply noTwo_newline_joinLines
  intro s hs
  have hpos := List.of_mem_filter hs
  obtain ⟨seg, hseg, hseq⟩ := List.mem_map.mp (List.mem_of_mem_filter hs)
  constructor
  · rw [← hseq]
    intro hmem
    exact splitLines_no_newline hseg (mem_jsTrim_sub hmem)
  · intro hnil
    rw [hnil] at hpos
    simp at hpos

theorem joinLines_trimmed_lines {L : List (List Char)}
    (h : ∀ s ∈ L, jsTrim s = s ∧ s ≠ []) : jsTrim (joinLines L) = joinLines L := by
  cases L with
  | nil => rfl
  | cons s L' =>
    apply jsTrim_eq_self_of_ends
    · intro c hc
      rw [head?_joinLines s L' (h s (by simp)).2] at hc
      have : (jsTrim s).head? = some c := by rw [(h s (by simp)).1]; exact hc
      exact jsTrim_head_not_ws this
    · intro c hc
      obtain ⟨t, ht1, ht2⟩ := getLast?_joinLines (fun a ha => (h a ha).2)
        (List.cons_ne_nil s L')
      rw [ht2] at hc
      have htmem : t ∈ s :: L' := getLast?_mem ht1
      have : (jsTrim t).getLast? = some c := by rw [(h t htmem).1]; exact hc
      exact jsTrim_last_not_ws this

theorem removeEmptyLines_linesNormal {l : List Char}
    (hne : removeEmptyLines l ≠ []) : LinesNormal (removeEmptyLines l) := by
  unfold removeEmptyLines at hne ⊢
  set lines := ((splitLines l).map jsTrim).filter (fun s => 0 < s.length) with hlines
  have hprops : ∀ s ∈ lines, jsTrim s = s ∧ s ≠ [] ∧ '\n' ∉ s := by
    intro s hs
    have hpos := List.of_mem_filter hs
    obtain ⟨seg, hseg, hseq⟩ := List.mem_map.mp (List.mem_of_mem_filter hs)
    refine ⟨by rw [← hseq]; exact jsTrim_idem seg, ?_, ?_⟩
    · intro hnil
      rw [hnil] at hpos
      simp at hpos
    · rw [← hseq]
      intro hmem
      exact splitLines_no_newline hseg (mem_jsTrim_sub hmem)
  have hLne : lines ≠ [] := by
    intro h0
    rw [h0] at hne
    exact hne rfl
  have hjt : jsTrim (joinLines lines) = joinLines lines :=
    joinLines_trimmed_lines (fun s hs => ⟨(hprops s hs).1, (hprops s hs).2.1⟩)
  rw [hjt]
  intro s hs
  rw [splitLines_joinLines (fun a ha => (hprops a ha).2.2) hLne] at hs
  exact ⟨(hprops s hs).1, (hprops s hs).2.1⟩

theorem removeEmptyLines_eq_self {y : List Char} (h : LinesNormal y) :
    removeEmptyLines y = y := by
  unfold removeEmptyLines
  have hmap : (splitLines y).map jsTrim = splitLines y :=
    map_eq_self_of _ (fun s hs => (h s hs).1)
  have hfil : (splitLines y).filter (fun s => 0 < s.length) = splitLines y :=
    List.filter_eq_self.mpr fun s hs => by
      simp [List.length_pos]
      exact (h s hs).2
  rw [hmap, hfil, joinLines_splitLines y]
  have hy : y = joinLines (splitLines y) := (joinLines_splitLines y).symm
  calc jsTrim y = jsTrim (joinLines (splitLines y)) := by rw [← hy]
    _ = joinLines (splitLines y) :=
        joinLines_trimmed_lines (fun s hs => ⟨(h s hs).1, (h s hs).2⟩)
    _ = y := joinLines_splitLines y

end RagSpec.TextPreprocessingService

namespace RagSpec.TextPreprocessingService

theorem noTwo_space_replaceChar {a b : Char} (hb : b ≠ ' ')
    {l : List Char} (h : NoTwo ' ' l) : NoTwo ' ' (replaceChar a b l) :=
  noTwo_map_of (fun c hc => by
    by_cases hca : c = a
    · rw [if_pos hca] at hc; exact absurd hc hb
    · rwa [if_neg hca] at hc) h

theorem noTwo_space_replaceChars {set : List Char} {b : Char} (hb : b ≠ ' ')
    {l : List Char} (h : NoTwo ' ' l) : NoTwo ' ' (replaceChars set b l) :=
  noTwo_map_of (fun c hc => by
    by_cases hcs : set.contains c = true
    · rw [if_pos hcs] at hc; exact absurd hc hb
    · rwa [if_neg hcs] at hc) h

theorem preprocess_noTwo_space {x : List Char}
    (hx : ∀ c ∈ x, isZeroWidth c = false) : NoTwo ' ' (preprocess x) := by
  have h1 : NoTwo ' ' (normalizeWhitespace x) := by
    unfold normalizeWhitespace
    exact collapseSpaces_noTwo _
  have h2 : NoTwo ' ' (normalizeLineBreaks (normalizeWhitespace x)) := by
    unfold normalizeLineBreaks
    generalize normalizeWhitespace x = Z at h1 ⊢
    exact noTwo_collapseNewlines3
      (noTwo_space_replaceChar (by decide) (noTwo_space_replaceCRLF h1))
  have hzw2 : ∀ c ∈ normalizeLineBreaks (normalizeWhitespace x),
      isZeroWidth c = false := by
    intro c hc
    rcases mem_normalizeLineBreaks hc with h | h
    · rcases mem_normalizeWhitespace h with h | h
      · exact hx c h
      · rw [h]; decide
    · rw [h]; decide
  have h3 : NoTwo ' '
      (cleanSpecialCharacters (normalizeLineBreaks (normalizeWhitespace x))) := by
    unfold cleanSpecialCharacters
    rw [stripZeroWidth_eq_self hzw2, keepUtf16Representable_eq_self]
    generalize normalizeLineBreaks (normalizeWhitespace x) = Z at h2 ⊢
    exact noTwo_space_replaceEllipsis
      (noTwo_space_replaceChars (by decide)
        (noTwo_space_replaceChars (by decide)
          (noTwo_space_replaceChars (by decide) h2)))
  have h4 : NoTwo ' ' (normalizeQuotes (cleanSpecialCharacters
      (normalizeLineBreaks (normalizeWhitespace x)))) := by
    unfold normalizeQuotes
    generalize cleanSpecialCharacters (normalizeLineBreaks (normalizeWhitespace x)) = Z at h3
    exact noTwo_space_replaceChars (by decide)
      (noTwo_space_replaceChars (by decide) h3)
  unfold preprocess
  generalize normalizeQuotes (cleanSpecialCharacters
    (normalizeLineBreaks (normalizeWhitespace x))) = Z at h4 ⊢
  exact noTwo_space_removeEmptyLines h4

theorem not_mem_preprocess_z1 {β : Char} {x : List Char}
    (hz1 : β ∉ normalizeWhitespace x) (hnl : β ≠ '\n') (hq : β ≠ '"')
    (ha : β ≠ '\'') (hd : β ≠ '-') (hp : β ≠ '.') : β ∉ preprocess x := by
  intro hm
  unfold preprocess at hm
  rcases mem_removeEmptyLines hm with h | h
  · rcases mem_normalizeQuotes h with h | h | h
    · rcases mem_cleanSpecialCharacters h with h | h | h | h | h
      · rcases mem_normalizeLineBreaks h with h | h
        · exact hz1 h
        · exact hnl h
      · exact hq h
      · exact ha h
      · exact hd h
      · exact hp h
    · exact hq h
    · exact ha h
  · exact hnl h

theorem not_mem_preprocess_z2 {β : Char} {x : List Char}
    (hz2 : β ∉ normalizeLineBreaks (normalizeWhitespace x)) (hnl : β ≠ '\n')
    (hq : β ≠ '"') (ha : β ≠ '\'') (hd : β ≠ '-') (hp : β ≠ '.') :
    β ∉ preprocess x := by
  intro hm
  unfold preprocess at hm
  rcases mem_removeEmptyLines hm with h | h
  · rcases mem_normalizeQuotes h with h | h | h
    · rcases mem_cleanSpecialCharacters h with h | h | h | h | h
      · exact hz2 h
      · exact hq h
      · exact ha h
      · exact hd h
      · exact hp h
    · exact hq h
    · exact ha h
  · exact hnl h

theorem not_mem_preprocess_z3 {β : Char} {x : List Char}
    (hz3 : β ∉ cleanSpecialCharacters
      (normalizeLineBreaks (normalizeWhitespace x)))
    (hnl : β ≠ '\n') (hq : β ≠ '"') (ha : β ≠ '\'') : β ∉ preprocess x := by
  intro hm
  unfold preprocess at hm
  rcases mem_removeEmptyLines hm with h | h
  · rcases mem_normalizeQuotes h with h | h | h
    · exact hz3 h
    · exact hq h
    · exact ha h
  · exact hnl h

end RagSpec.TextPreprocessingService

namespace RagSpec.TextPreprocessingService

theorem preprocess_eq_self_of_normal {y : List Char}
    (htab : '\t' ∉ y) (hnbsp : ' ' ∉ y) (hcr : '\r' ∉ y)
    (hzw : ∀ c ∈ y, isZeroWidth c = false)
    (hdq1 : '“' ∉ y) (hdq2 : '”' ∉ y)
    (hap1 : '‘' ∉ y) (hap2 : '’' ∉ y)
    (hda1 : '–' ∉ y) (hda2 : '—' ∉ y) (hell : '…' ∉ y)
    (hsp : NoTwo ' ' y) (hnl : NoTwo '\n' y) (hln : LinesNormal y) :
    preprocess y = y := by
  have h200B : '​' ∉ y := fun hm => by
    have := hzw _ hm
    simp [isZeroWidth] at this
  have hcontq : ∀ c ∈ y, (['“', '”'].contains c) = false := by
    intro c hc
    have h1 : ¬ c = '“' := fun h => hdq1 (h ▸ hc)
    have h2 : ¬ c = '”' := fun h => hdq2 (h ▸ hc)
    simp [h1, h2]
  have hconta : ∀ c ∈ y, (['‘', '’'].contains c) = false := by
    intro c hc
    have h1 : ¬ c = '‘' := fun h => hap1 (h ▸ hc)
    have h2 : ¬ c = '’' := fun h => hap2 (h ▸ hc)
    simp [h1, h2]
  have hcontd : ∀ c ∈ y, (['–', '—'].contains c) = false := by
    intro c hc
    have h1 : ¬ c = '–' := fun h => hda1 (h ▸ hc)
    have h2 : ¬ c = '—' := fun h => hda2 (h ▸ hc)
    simp [h1, h2]
  unfold preprocess normalizeWhitespace normalizeLineBreaks
    cleanSpecialCharacters normalizeQuotes
  rw [replaceChar_eq_self htab, replaceChar_eq_self hnbsp,
    replaceSeq2000_eq_self h200B, collapseSpaces_eq_self hsp,
    replaceCRLF_eq_self hcr, replaceChar_eq_self hcr,
    collapseNewlines3_eq_self hnl, stripZeroWidth_eq_self hzw,
    keepUtf16Representable_eq_self, replaceChars_eq_self hcontq,
    replaceChars_eq_self hconta, replaceChars_eq_self hcontd,
    replaceEllipsis_eq_self hell, replaceChars_eq_self hcontq,
    replaceChars_eq_self hconta, removeEmptyLines_eq_self hln]

attribute [irreducible] NoTwo

/-- C8 (amended): `preprocess` is idempotent on every input that contains
none of the zero-width characters U+200B, U+200C, U+200D, U+FEFF.  (On
inputs containing them idempotence fails —
`preprocess_not_idempotent_counterexample` — because the zero-width
stripping runs after the space-collapsing and can leave a double space.) -/
theorem preprocess_idempotent_of_no_zero_width (x : List Char)
    (hx : ∀ c ∈ x, isZeroWidth c = false) :
    preprocess (preprocess x) = preprocess x := by
  by_cases hy : preprocess x = []
  · rw [hy]
    rfl
  · have htab : '\t' ∉ preprocess x :=
      not_mem_preprocess_z1 (not_mem_normalizeWhitespace_tab x)
        (by decide) (by decide) (by decide) (by decide) (by decide)
    have hnbsp : '\u00A0' ∉ preprocess x :=
      not_mem_preprocess_z1 (not_mem_normalizeWhitespace_nbsp x)
        (by decide) (by decide) (by decide) (by decide) (by decide)
    have hcr : '\r' ∉ preprocess x :=
      not_mem_preprocess_z2 (not_mem_normalizeLineBreaks_cr _)
        (by decide) (by decide) (by decide) (by decide) (by decide)
    have hdq1 : '\u201C' ∉ preprocess x :=
      not_mem_preprocess_z3 (not_mem_cleanSpecialCharacters_dquote
        (Or.inl rfl) _) (by decide) (by decide) (by decide)
    have hdq2 : '\u201D' ∉ preprocess x :=
      not_mem_preprocess_z3 (not_mem_cleanSpecialCharacters_dquote
        (Or.inr rfl) _) (by decide) (by decide) (by decide)
    have hap1 : '\u2018' ∉ preprocess x :=
      not_mem_preprocess_z3 (not_mem_cleanSpecialCharacters_apos
        (Or.inl rfl) _) (by decide) (by decide) (by decide)
    have hap2 : '\u2019' ∉ preprocess x :=
      not_mem_preprocess_z3 (not_mem_cleanSpecialCharacters_apos
        (Or.inr rfl) _) (by decide) (by decide) (by decide)
    have hda1 : '\u2013' ∉ preprocess x :=
      not_mem_preprocess_z3 (not_mem_cleanSpecialCharacters_dash
        (Or.inl rfl) _) (by decide) (by decide) (by decide)
    have hda2 : '\u2014' ∉ preprocess x :=
      not_mem_preprocess_z3 (not_mem_cleanSpecialCharacters_dash
        (Or.inr rfl) _) (by decide) (by decide) (by decide)
    have hell : '\u2026' ∉ preprocess x :=
      not_mem_preprocess_z3 (not_mem_cleanSpecialCharacters_ellipsis _)
        (by decide) (by decide) (by decide)
    have hzw : ∀ c ∈ preprocess x, isZeroWidth c = false := by
      intro c hc
      by_cases hzwc : isZeroWidth c = true
      · have hd4 : c = '\u200B' ∨ c = '\u200C' ∨ c = '\u200D' ∨ c = '\uFEFF' := by
          simpa [isZeroWidth, Bool.or_eq_true, decide_eq_true_eq, or_assoc]
            using hzwc
        have hnot : c ∉ preprocess x := by
          refine not_mem_preprocess_z3
            (not_mem_cleanSpecialCharacters_zw hzwc _) ?_ ?_ ?_ <;>
            rcases hd4 with h | h | h | h <;> subst h <;> decide
        exact absurd hc hnot
      · exact Bool.eq_false_iff.mpr hzwc
    have hnl : NoTwo '\n' (preprocess x) := by
      unfold preprocess
      generalize normalizeQuotes (cleanSpecialCharacters
        (normalizeLineBreaks (normalizeWhitespace x))) = Z
      exact noTwo_newline_removeEmptyLines Z
    have hln : LinesNormal (preprocess x) := by
      unfold preprocess at hy ⊢
      generalize hZ : normalizeQuotes (cleanSpecialCharacters
        (normalizeLineBreaks (normalizeWhitespace x))) = Z at hy ⊢
      exact removeEmptyLines_linesNormal hy
    have hsp : NoTwo ' ' (preprocess x) := preprocess_noTwo_space hx
    exact preprocess_eq_self_of_normal htab hnbsp hcr hzw hdq1 hdq2 hap1
      hap2 hda1 hda2 hell hsp hnl hln

/-- Witness for the amended C8 theorem: the concrete zero-width-free input
`"Hello \t world.\r\nBye.  "` satisfies the hypothesis, and `preprocess`
is idempotent on it. -/
theorem preprocess_idempotent_of_no_zero_width_witness :
    (∀ c ∈ ("Hello \t world.\r\nBye.  ").data, isZeroWidth c = false) ∧
      preprocess (preprocess ("Hello \t world.\r\nBye.  ").data) =
        preprocess ("Hello \t world.\r\nBye.  ").data :=
  ⟨by decide, preprocess_idempotent_of_no_zero_width
    ("Hello \t world.\r\nBye.  ").data (by decide)⟩

end RagSpec.TextPreprocessingService
